import Mathlib

/-!
Verification of the reactivity core of this Vue 2 fork
(src/core/observer/index.js, src/core/observer/dep.js, src/core/observer/array.js).

The JavaScript heap is embedded shallowly: objects live at numeric addresses in
a list-backed heap, property tables are association lists, and the mutable
module-level state of the observer module (Dep.target, shouldObserve, the
warning channel, configuration flags) is carried in one explicit state record.
Reactive properties installed by `defineReactive` are represented by the state
their getter/setter closures capture (`dep`, `val`, `childOb`, `shallow`,
and any previously installed accessor pair they delegate to).

Watchers are external consumers (per the spec they are an external capability):
the core's calls into them — `Dep.target.addDep(dep)` from `dep.depend()`, and
`sub.update()` from `dep.notify()` — are recorded in logs (`dependLog`,
`notifyLog`) rather than executed, since their bodies are not part of this
repository's core. `Dep.notify` itself is additionally modelled standalone
(`depNotifyRun`) parameterised over an arbitrary consumer `update` behaviour,
to settle the snapshot/ordering claims.

All heap-recursive operations take a fuel parameter and return `none` when the
fuel runs out, so that cyclic data (which the source can legitimately be given)
is handled without general recursion.
-/

namespace Vue

/-- Heap addresses for JavaScript objects. -/
abbrev Addr := Nat

/-- Identity of an `Observer` instance. -/
abbrev ObId := Nat

/-- Identity of a `Dep` instance (index into allocation order, which is also
the `id` field assigned from the module-level `uid` counter in dep.js). -/
abbrev DepId := Nat

/-- Identity (the `id` field) of an external watcher/consumer. -/
abbrev WId := Nat

/-- JavaScript primitive values. `nan` is kept separate from `num` because the
setter in `defineReactive` relies on NaN's self-inequality. -/
inductive Prim
  | undef
  | null
  | boolean (b : Bool)
  | num (n : Int)
  | nan
  | str (s : String)
deriving DecidableEq, Repr

/-- A JavaScript value: a primitive or a reference to a heap object. -/
inductive JSValue
  | prim (p : Prim)
  | ref (a : Addr)
deriving DecidableEq, Repr

/-- Closure state of a reactive accessor pair installed by `defineReactive`:
`base` is the common case (the property was a plain data property or absent,
so the closure caches `val` itself); `over` is installed when `defineReactive`
is run on a property that already carries a reactive accessor pair, which the
new closures capture as `getter`/`setter` and delegate to. -/
inductive RProp
  | base (depId : DepId) (val : JSValue) (childOb : Option ObId) (shallow : Bool)
  | over (depId : DepId) (inner : RProp) (childOb : Option ObId) (shallow : Bool)
deriving DecidableEq, Repr

/-- A property slot: a plain data property (with its enumerable/configurable
attributes; data properties of the modelled objects are writable) or a
reactive accessor installed by `defineReactive` (always enumerable and
configurable, per the descriptor it passes to `Object.defineProperty`). -/
inductive Field
  | data (v : JSValue) (enumerable : Bool) (configurable : Bool)
  | reactive (r : RProp)
deriving DecidableEq, Repr

/-- Kinds of heap objects: plain objects (`isPlainObject`), arrays, VNodes
(the excluded sentinel kind) and other non-plain objects (class instances,
which `observe` also declines to wrap). -/
inductive ObjKind
  | plain
  | arr
  | vnode
  | other
deriving DecidableEq, Repr

/-- A heap object. `fields` are its string-keyed own properties (the hidden
`__ob__` marker is carried separately in `obId`), `elems` its array slots
(meaningful when `kind = arr`), `isVue` the `_isVue` instance flag, and
`extensible` the result of `Object.isExtensible`. -/
structure HObject where
  kind : ObjKind
  fields : List (String × Field)
  elems : List JSValue
  obId : Option ObId
  isVue : Bool
  extensible : Bool
deriving DecidableEq, Repr

/-- State of an `Observer` instance: its owned `dep`, its `vmCount` and the
`value` it wraps. -/
structure ObRec where
  depId : DepId
  vmCount : Nat
  value : Addr
deriving DecidableEq, Repr

/-- State of a `Dep` instance: its subscriber list (watcher ids). -/
structure DepRec where
  subs : List WId
deriving DecidableEq, Repr

/-- Whole-module state: the heap, the `Observer` and `Dep` instance tables,
`Dep.target`, the `shouldObserve` flag, the `isServerRendering` result, the
development-build flag (`process.env.NODE_ENV !== 'production'`), the
`config.async` flag, and the logs recording calls across the core's boundary:
`warnCount` (developer warnings emitted), `dependLog` (each
`Dep.target.addDep(dep)` call as a (watcher, dep) pair) and `notifyLog`
(each `dep.notify()` call with the subscriber snapshot it dispatched to). -/
structure St where
  heap : List HObject
  obs : List ObRec
  deps : List DepRec
  target : Option WId
  shouldObserve : Bool
  ssr : Bool
  dev : Bool
  async : Bool
  warnCount : Nat
  dependLog : List (WId × DepId)
  notifyLog : List (DepId × List WId)
deriving DecidableEq, Repr

/-- Look up a heap object. -/
def heapGet (s : St) (a : Addr) : Option HObject := s.heap.get? a

/-- Replace a heap object. -/
def heapSet (s : St) (a : Addr) (o : HObject) : St := { s with heap := s.heap.set a o }

/-- Look up an observer record. -/
def obsGet (s : St) (i : ObId) : Option ObRec := s.obs.get? i

/-- Replace an observer record. -/
def obsSet (s : St) (i : ObId) (r : ObRec) : St := { s with obs := s.obs.set i r }

/-- Look up a dep record. -/
def depsGet (s : St) (i : DepId) : Option DepRec := s.deps.get? i

/-- Marker (`__ob__`) of the object at an address, if any. -/
def obIdAt (s : St) (a : Addr) : Option ObId := (heapGet s a).bind (·.obId)

/-- First-match lookup in a property table. -/
def fGet : List (String × Field) → String → Option Field
  | [], _ => none
  | (k, f) :: rest, key => if k = key then some f else fGet rest key

/-- Replace the first matching key in a property table, or append the new
property at the end (JavaScript property insertion order). -/
def fSet : List (String × Field) → String → Field → List (String × Field)
  | [], key, f => [(key, f)]
  | (k, g) :: rest, key, f =>
    if k = key then (k, f) :: rest else (k, g) :: fSet rest key f

/-- Update one property of the object at `a` (no-op on a dangling address). -/
def heapSetField (s : St) (a : Addr) (key : String) (f : Field) : St :=
  match heapGet s a with
  | none => s
  | some o => heapSet s a { o with fields := fSet o.fields key f }

/-- Record one developer warning (the `warn` transport is external to the
core; only the emission count is observable here). -/
def warn (s : St) : St := { s with warnCount := s.warnCount + 1 }

/-- Embedding of `Dep.prototype.depend`: if `Dep.target` is set, call
`Dep.target.addDep(this)`; the call into the external watcher is recorded in
`dependLog`. -/
def depend (s : St) (d : DepId) : St :=
  match s.target with
  | some w => { s with dependLog := s.dependLog ++ [(w, d)] }
  | none => s

/-- Dispatch order of `Dep.prototype.notify`: it snapshots the subscriber list
(`this.subs.slice()`), and sorts the snapshot ascending by watcher id exactly
when running a development build with `config.async` disabled. -/
def notifyOrder (dev async : Bool) (subs : List WId) : List WId :=
  let snapshot := subs
  if dev && !async then List.insertionSort (· ≤ ·) snapshot else snapshot

/-- Embedding of `dep.notify()` inside the heap model: the dispatch of
`update()` over the ordered snapshot goes to external watchers, so it is
recorded in `notifyLog`. -/
def depNotify (s : St) (d : DepId) : St :=
  let subs := match depsGet s d with | some r => r.subs | none => []
  { s with notifyLog := s.notifyLog ++ [(d, notifyOrder s.dev s.async subs)] }

/-- Embedding of `isUndef` from the shared utils: `undefined` or `null`. -/
def isUndef : JSValue → Bool
  | .prim .undef => true
  | .prim .null => true
  | _ => false

/-- Embedding of `isPrimitive` from the shared utils: string, number, symbol
or boolean (`NaN` is a number; `undefined`/`null` are not matched). -/
def isPrimitive : JSValue → Bool
  | .prim (.boolean _) => true
  | .prim (.num _) => true
  | .prim .nan => true
  | .prim (.str _) => true
  | _ => false

/-- JavaScript strict equality (`===`) on modelled values: reference identity
for objects, value equality for primitives, `NaN === NaN` being false. -/
def jsEq : JSValue → JSValue → Bool
  | .ref a, .ref b => a == b
  | .prim .nan, _ => false
  | _, .prim .nan => false
  | .prim p, .prim q => p == q
  | _, _ => false

/-- Self-inequality (`x !== x`), true exactly for NaN. -/
def selfNeq (v : JSValue) : Bool := v == .prim .nan

/-- Property keys passed to the mutation API: a valid (nonnegative integral)
array index, or a string key. -/
inductive PropKey
  | idx (n : Nat)
  | s (k : String)
deriving DecidableEq, Repr

/-- String form of a key (numeric keys coerce via `String(key)`). -/
def keyStr : PropKey → String
  | .idx n => toString n
  | .s k => k

/-- Embedding of `isValidArrayIndex` from the shared utils on modelled keys:
the `idx` constructor carries exactly the nonnegative integral finite keys. -/
def isValidArrayIndex : PropKey → Bool
  | .idx _ => true
  | .s _ => false

/-- Own properties of `Object.prototype`, used by the `key in Object.prototype`
test in `set`. -/
def objectProtoKeys : List String :=
  ["constructor", "hasOwnProperty", "isPrototypeOf", "propertyIsEnumerable",
   "toLocaleString", "toString", "valueOf", "__proto__",
   "__defineGetter__", "__defineSetter__", "__lookupGetter__", "__lookupSetter__"]

/-- Representative own properties of `Array.prototype` (plus `length`),
visible to the `key in target` test when the target is an array. -/
def arrayProtoKeys : List String :=
  ["length", "push", "pop", "shift", "unshift", "splice", "sort", "reverse",
   "concat", "join", "slice", "indexOf", "forEach", "map", "filter"]

/-- The `key in target` test used by `set`: own properties, the hidden
`__ob__` marker, and properties inherited from `Object.prototype` (and from
`Array.prototype` when the target is an array; in-range indices count for
arrays). -/
def keyIn (o : HObject) (k : PropKey) : Bool :=
  (fGet o.fields (keyStr k)).isSome
  || (keyStr k == "__ob__" && o.obId.isSome)
  || objectProtoKeys.contains (keyStr k)
  || (o.kind == .arr &&
      (arrayProtoKeys.contains (keyStr k) ||
       (match k with | .idx n => n < o.elems.length | .s _ => false)))

/-- Keys returned by `Object.keys`: own enumerable properties, in insertion
order (reactive accessors are installed with `enumerable: true`). -/
def enumKeys : List (String × Field) → List String
  | [] => []
  | (k, .data _ true _) :: rest => k :: enumKeys rest
  | (_, .data _ false _) :: rest => enumKeys rest
  | (k, .reactive _) :: rest => k :: enumKeys rest

/-- Embedding of `dependArray` (observer/index.js): walk the array, call
`e.__ob__.dep.depend()` on every element carrying an observer, and recurse
into nested arrays. Fuel bounds the recursion (the source has no cycle
guard and would itself not terminate on a self-containing array). -/
def dependArray (fuel : Nat) (s : St) (items : List JSValue) : Option St :=
  match fuel with
  | 0 => none
  | fuel + 1 =>
    match items with
    | [] => some s
    | e :: rest =>
      let step1 : Option St :=
        match e with
        | .prim _ => some s
        | .ref x =>
          match heapGet s x with
          | none => none
          | some o =>
            match o.obId with
            | none => some s
            | some ob =>
              match obsGet s ob with
              | none => none
              | some orec => some (depend s orec.depId)
      step1.bind fun s1 =>
      let step2 : Option St :=
        match e with
        | .prim _ => some s1
        | .ref x =>
          match heapGet s1 x with
          | none => none
          | some o =>
            if o.kind = .arr then dependArray fuel s1 o.elems else some s1
      step2.bind fun s2 =>
      dependArray fuel s2 rest

/-- Value a reactive accessor chain currently yields on read (`val` of the
innermost closure, since delegating getters return the delegate's result). -/
def rpropValue : RProp → JSValue
  | .base _ v _ _ => v
  | .over _ inner _ _ => rpropValue inner

/-- Tail of `reactiveGetter` after the value is obtained: under an active
`Dep.target`, `dep.depend()`; then, if a child observer exists,
`childOb.dep.depend()` and, if the value is an array, `dependArray(value)`. -/
def getterTail (fuel : Nat) (s : St) (depId : DepId) (co : Option ObId)
    (v : JSValue) : Option (JSValue × St) :=
  match s.target with
  | none => some (v, s)
  | some _ =>
    let s1 := depend s depId
    match co with
    | none => some (v, s1)
    | some ob =>
      match obsGet s1 ob with
      | none => none
      | some orec =>
        let s2 := depend s1 orec.depId
        match v with
        | .prim _ => some (v, s2)
        | .ref x =>
          match heapGet s2 x with
          | none => none
          | some o =>
            if o.kind = .arr then (dependArray fuel s2 o.elems).map (fun s3 => (v, s3))
            else some (v, s2)

/-- Embedding of `reactiveGetter` from `defineReactive`: obtain the value
(from the captured `val`, or by delegating to a previously installed getter),
then register dependencies as in `getterTail`. -/
def reactiveGetter (fuel : Nat) (s : St) (r : RProp) : Option (JSValue × St) :=
  match r with
  | .base depId v co _ => getterTail fuel s depId co v
  | .over depId inner co _ =>
    (reactiveGetter fuel s inner).bind fun p =>
      getterTail fuel p.2 depId co p.1

/-- Requests for the mutually recursive group of stateful operations
`observe` → `new Observer` → `walk`/`observeArray` → `defineReactive` →
`observe`, executed by the single fuel-indexed interpreter `exec` so that the
recursion (which can revisit the heap cyclically) is structurally bounded. -/
inductive Req
  | observeReq (v : JSValue) (asRoot : Bool)
  | newObserverReq (a : Addr)
  | walkReq (a : Addr) (keys : List String)
  | observeArrayReq (items : List JSValue)
  | defineReactiveReq (a : Addr) (key : String) (valArg : Option JSValue) (shallow : Bool)
deriving DecidableEq, Repr

/-- Tail of `observe`: `if (asRootData && ob) ob.vmCount++; return ob`. -/
def rootBump (s : St) (obOpt : Option ObId) (asRoot : Bool) : Option (Option ObId × St) :=
  match obOpt, asRoot with
  | some ob, true =>
    match obsGet s ob with
    | none => none
    | some r => some (some ob, obsSet s ob { r with vmCount := r.vmCount + 1 })
  | _, _ => some (obOpt, s)

/-- Fuel-indexed interpreter for the mutually recursive observer operations.
Each request mirrors its source function line by line:

`observeReq` (function `observe`): non-objects and `VNode` instances return
no observer; a value already carrying an `__ob__` marker returns that
observer; otherwise, when `shouldObserve` is on, not server rendering, the
value is an array or plain object, extensible and not a Vue instance, a new
`Observer` is constructed; finally `asRootData` bumps `vmCount`.

`newObserverReq` (the `Observer` constructor): create the owned dep, attach
the `__ob__` marker, then either observe existing array elements (array case;
the interception of mutating methods that `protoAugment`/`copyAugment`
install is represented by `callArrayMethod` dispatching on the marker) or
walk own enumerable keys installing reactive accessors (object case).

`walkReq`/`observeArrayReq`: the loops of `walk` and `observeArray`.

`defineReactiveReq` (function `defineReactive`): allocate the per-property
dep, abort if the existing descriptor is non-configurable, capture any
previously installed accessor pair, read the initial value when called with
two arguments, observe it (`childOb`, unless shallow) and install the
accessor pair. The `customSetter` parameter is omitted: no call site inside
this repository passes one. -/
def exec : Nat → St → Req → Option (Option ObId × St)
  | 0, _, _ => none
  | fuel + 1, s, req =>
    match req with
    | .observeReq v asRoot =>
      match v with
      | .prim _ => some (none, s)
      | .ref a =>
        match heapGet s a with
        | none => none
        | some o =>
          if o.kind = .vnode then some (none, s)
          else
            match o.obId with
            | some ob => rootBump s (some ob) asRoot
            | none =>
              if s.shouldObserve ∧ ¬s.ssr ∧ (o.kind = .arr ∨ o.kind = .plain) ∧
                  o.extensible ∧ ¬o.isVue then
                (exec fuel s (.newObserverReq a)).bind fun p =>
                  rootBump p.2 p.1 asRoot
              else rootBump s none asRoot
    | .newObserverReq a =>
      match heapGet s a with
      | none => none
      | some o =>
        let depId := s.deps.length
        let s1 : St := { s with deps := s.deps ++ [⟨[]⟩] }
        let ob := s1.obs.length
        let s2 : St := { s1 with obs := s1.obs ++ [⟨depId, 0, a⟩] }
        let s3 := heapSet s2 a { o with obId := some ob }
        if o.kind = .arr then
          (exec fuel s3 (.observeArrayReq o.elems)).map fun p => (some ob, p.2)
        else
          (exec fuel s3 (.walkReq a (enumKeys o.fields))).map fun p => (some ob, p.2)
    | .walkReq a keys =>
      match keys with
      | [] => some (none, s)
      | k :: rest =>
        (exec fuel s (.defineReactiveReq a k none false)).bind fun p =>
          exec fuel p.2 (.walkReq a rest)
    | .observeArrayReq items =>
      match items with
      | [] => some (none, s)
      | v :: rest =>
        (exec fuel s (.observeReq v false)).bind fun p =>
          exec fuel p.2 (.observeArrayReq rest)
    | .defineReactiveReq a key valArg shallow =>
      match heapGet s a with
      | none => none
      | some o =>
        let depId := s.deps.length
        let s1 : St := { s with deps := s.deps ++ [⟨[]⟩] }
        let property := fGet o.fields key
        match property with
        | some (.data _ _ false) => some (none, s1)
        | _ =>
          let valStep : Option (JSValue × St) :=
            match valArg with
            | some v => some (v, s1)
            | none =>
              match property with
              | some (.reactive r) => reactiveGetter fuel s1 r
              | some (.data v _ _) => some (v, s1)
              | none => some (.prim .undef, s1)
          valStep.bind fun vp =>
          (if shallow then some ((none : Option ObId), vp.2)
           else (exec fuel vp.2 (.observeReq vp.1 false))).bind fun cp =>
          let newF : Field :=
            match property with
            | some (.reactive r) => .reactive (.over depId r cp.1 shallow)
            | _ => .reactive (.base depId vp.1 cp.1 shallow)
          some (none, heapSetField cp.2 a key newF)

/-- Embedding of `observe` (observer/index.js). -/
def observe (fuel : Nat) (s : St) (v : JSValue) (asRoot : Bool) :
    Option (Option ObId × St) :=
  exec fuel s (.observeReq v asRoot)

/-- Embedding of `defineReactive` (observer/index.js); `valArg = none` is the
two-argument call used by `walk`, `valArg = some v` the call from `set`. -/
def defineReactive (fuel : Nat) (s : St) (a : Addr) (key : String)
    (valArg : Option JSValue) (shallow : Bool) : Option St :=
  (exec fuel s (.defineReactiveReq a key valArg shallow)).map (·.2)

/-- Embedding of `Observer.prototype.observeArray`. -/
def observeArray (fuel : Nat) (s : St) (items : List JSValue) : Option St :=
  (exec fuel s (.observeArrayReq items)).map (·.2)

/-- Embedding of `reactiveSetter` from `defineReactive`, acting on the closure
state: obtain the current value (delegating to a captured getter when one
exists), return unchanged on identical values or NaN-over-NaN, otherwise
store the new value (or delegate to the captured setter), refresh `childOb`
by re-observing the new value, and `dep.notify()`. Returns the updated
closure state. -/
def reactiveSetterRun (fuel : Nat) (s : St) (r : RProp) (newVal : JSValue) :
    Option (RProp × St) :=
  match r with
  | .base depId v _co sh =>
    if jsEq newVal v || (selfNeq newVal && selfNeq v) then some (r, s)
    else
      (if sh then some ((none : Option ObId), s)
       else observe fuel s newVal false).bind fun cp =>
      some (.base depId newVal cp.1 sh, depNotify cp.2 depId)
  | .over depId inner _co sh =>
    (reactiveGetter fuel s inner).bind fun vp =>
    if jsEq newVal vp.1 || (selfNeq newVal && selfNeq vp.1) then some (r, vp.2)
    else
      (reactiveSetterRun fuel vp.2 inner newVal).bind fun ip =>
      (if sh then some ((none : Option ObId), ip.2)
       else observe fuel ip.2 newVal false).bind fun cp =>
      some (.over depId ip.1 cp.1 sh, depNotify cp.2 depId)

/-- Run the reactive setter installed at `(a, key)` and store the updated
closure state back into the property slot. -/
def reactiveSetter (fuel : Nat) (s : St) (a : Addr) (key : String) (r : RProp)
    (newVal : JSValue) : Option St :=
  (reactiveSetterRun fuel s r newVal).map fun p =>
    heapSetField p.2 a key (.reactive p.1)

/-- Plain JavaScript property assignment `target[key] = val` on a heap object:
array index writes store directly into the slots (index writes cannot be
intercepted); otherwise the write routes through an installed reactive
accessor, updates a plain data property, or creates a new own enumerable
property on an extensible object (silently dropped when non-extensible).
Assignments to the `__ob__` marker slot or through the `__proto__` setter are
outside the modelled state space and fail. -/
def jsAssign (fuel : Nat) (s : St) (a : Addr) (k : PropKey) (newVal : JSValue) :
    Option St :=
  match heapGet s a with
  | none => none
  | some o =>
    if o.kind = .arr ∧ isValidArrayIndex k = true then
      match k with
      | .idx n =>
        let es := o.elems
        let es2 :=
          if n < es.length then es.set n newVal
          else (es ++ List.replicate (n - es.length) (.prim .undef)) ++ [newVal]
        some (heapSet s a { o with elems := es2 })
      | .s _ => none
    else
      let ks := keyStr k
      match fGet o.fields ks with
      | some (.data _ e c) => some (heapSetField s a ks (.data newVal e c))
      | some (.reactive r) => reactiveSetter fuel s a ks r newVal
      | none =>
        if ks = "__ob__" ∨ ks = "__proto__" then none
        else if o.extensible then some (heapSetField s a ks (.data newVal true true))
        else some s

/-- The seven in-place mutating array methods patched in observer/array.js. -/
inductive AMethod
  | push
  | pop
  | shift
  | unshift
  | splice
  | sort
  | reverse
deriving DecidableEq, Repr

/-- Which arguments of a patched call are newly inserted elements:
`push`/`unshift` all arguments, `splice` the arguments after the first two,
the rest none (`inserted` stays `undefined`, which is falsy, while an empty
argument slice is a truthy empty array — hence the `Option`). -/
def insertedOf : AMethod → List JSValue → Option (List JSValue)
  | .push, args => some args
  | .unshift, args => some args
  | .splice, args => some (args.drop 2)
  | _, _ => none

/-- JavaScript `ToInteger` on the modelled values as used by `splice`
argument coercion (non-numeric strings and plain objects coerce through NaN
to 0; numeric-string keys are not used by the modelled call sites). -/
def jsToInt : JSValue → Int
  | .prim (.num n) => n
  | .prim (.boolean b) => if b then 1 else 0
  | _ => 0

/-- Actual splice start index per the ECMAScript clamping rules. -/
def spliceStart (start : Int) (len : Nat) : Nat :=
  if start < 0 then ((len : Int) + start).toNat else min start.toNat len

/-- Actual splice delete count per the ECMAScript clamping rules. -/
def spliceCount (args : List JSValue) (len actualStart : Nat) : Nat :=
  match args with
  | [] => 0
  | [_] => len - actualStart
  | _ :: dc :: _ => min (max (jsToInt dc) 0).toNat (len - actualStart)

/-- String conversion of each value in a list, as performed by the default
(comparator-less) `Array.prototype.sort`: primitives via `String(v)`, plain
objects via the default `Object.prototype.toString`, arrays by joining their
elements with `,` where `undefined` and `null` render empty. Fuel bounds
nested-array recursion. -/
def jsKeyList (fuel : Nat) (s : St) : List JSValue → Option (List String)
  | [] => some []
  | v :: rest =>
    match fuel with
    | 0 => none
    | fuel + 1 =>
      let hd : Option String :=
        match v with
        | .prim .undef => some "undefined"
        | .prim .null => some "null"
        | .prim (.boolean b) => some (if b then "true" else "false")
        | .prim (.num n) => some (toString n)
        | .prim .nan => some "NaN"
        | .prim (.str t) => some t
        | .ref x =>
          match heapGet s x with
          | none => none
          | some o =>
            if o.kind = .arr then
              (jsKeyList fuel s o.elems).map fun parts =>
                String.intercalate ","
                  ((o.elems.zip parts).map fun pr =>
                    if isUndef pr.1 then "" else pr.2)
            else some "[object Object]"
      hd.bind fun str =>
      (jsKeyList (fuel + 1) s rest).map fun tl => str :: tl

/-- Stable insertion sort by precomputed string keys (the default sort order
of comparator-less `Array.prototype.sort`; `undefined` elements are moved to
the end before key comparison per the ECMAScript SortCompare). -/
def sortInsert (p : String × JSValue) :
    List (String × JSValue) → List (String × JSValue)
  | [] => [p]
  | q :: qs => if p.1 ≤ q.1 then p :: q :: qs else q :: sortInsert p qs

/-- Stable insertion sort by the precomputed string keys. -/
def sortByKey : List (String × JSValue) → List (String × JSValue)
  | [] => []
  | p :: rest => sortInsert p (sortByKey rest)

/-- The original (unpatched) `Array.prototype` behaviour of each mutating
method on the element list of the array at `a`: returns the call's result
value, the new element list, and the state (extended by the fresh array that
`splice` returns). -/
def rawApply (fuel : Nat) (s : St) (a : Addr) (m : AMethod) (args : List JSValue) :
    Option (JSValue × List JSValue × St) :=
  match heapGet s a with
  | none => none
  | some o =>
    let es := o.elems
    match m with
    | .push => some (.prim (.num (es.length + args.length)), es ++ args, s)
    | .pop =>
      match es.getLast? with
      | none => some (.prim .undef, es, s)
      | some v => some (v, es.dropLast, s)
    | .shift =>
      match es with
      | [] => some (.prim .undef, [], s)
      | v :: rest => some (v, rest, s)
    | .unshift => some (.prim (.num (es.length + args.length)), args ++ es, s)
    | .splice =>
      let start := spliceStart (jsToInt (args.headD (.prim .undef))) es.length
      let dc := spliceCount args es.length start
      let items := args.drop 2
      let removed := (es.drop start).take dc
      let es2 := es.take start ++ items ++ es.drop (start + dc)
      let na := s.heap.length
      let s1 : St := { s with heap := s.heap ++ [⟨.arr, [], removed, none, false, true⟩] }
      some (.ref na, es2, s1)
    | .sort =>
      let defined := es.filter (fun v => v ≠ .prim .undef)
      let undefs := es.filter (fun v => v = .prim .undef)
      (jsKeyList fuel s defined).map fun keys =>
        (.ref a, (sortByKey (keys.zip defined)).map (·.2) ++ undefs, s)
    | .reverse => some (.ref a, es.reverse, s)

/-- Embedding of the patched `mutator` from observer/array.js: run the
original method and capture its result, look up `this.__ob__`, observe any
newly inserted elements, `ob.dep.notify()`, and return the original result
unchanged. -/
def mutator (fuel : Nat) (s : St) (a : Addr) (m : AMethod) (args : List JSValue) :
    Option (JSValue × St) :=
  (rawApply fuel s a m args).bind fun rp =>
  match heapGet rp.2.2 a with
  | none => none
  | some o1 =>
    let s2 := heapSet rp.2.2 a { o1 with elems := rp.2.1 }
    match o1.obId with
    | none => none
    | some ob =>
      match obsGet s2 ob with
      | none => none
      | some orec =>
        (match insertedOf m args with
         | some ins => observeArray fuel s2 ins
         | none => some s2).map fun s3 =>
        (rp.1, depNotify s3 orec.depId)

/-- Method-call dispatch on a modelled array: observed arrays have the
patched methods (their prototype chain was redirected to `arrayMethods` when
their `Observer` was constructed), unobserved arrays the originals. -/
def callArrayMethod (fuel : Nat) (s : St) (a : Addr) (m : AMethod)
    (args : List JSValue) : Option (JSValue × St) :=
  match obIdAt s a with
  | some _ => mutator fuel s a m args
  | none =>
    (rawApply fuel s a m args).bind fun rp =>
    match heapGet rp.2.2 a with
    | none => none
    | some o1 => some (rp.1, heapSet rp.2.2 a { o1 with elems := rp.2.1 })

/-- Extend the element list to length `m` with undefined slots (the effect of
`target.length = Math.max(target.length, key)` when it grows the array). -/
def padTo (es : List JSValue) (m : Nat) : List JSValue :=
  es ++ List.replicate (m - es.length) (.prim .undef)

/-- Embedding of `set` (observer/index.js). In order: a development warning on
undefined/null/primitive targets (after which `key in target` throws, hence
`none`); the array-with-valid-index path (`length` stretch then
`target.splice(key, 1, val)`, dispatching through the interceptor when the
array is observed); the existing-key path (`key in target` and not
`key in Object.prototype`: plain assignment); then with `ob = target.__ob__`,
the root-guard (`target._isVue || (ob && ob.vmCount)`: development warning
and return with no assignment), the unobserved-target plain assignment, and
finally `defineReactive(ob.value, key, val)` plus `ob.dep.notify()`. -/
def set (fuel : Nat) (s : St) (target : JSValue) (k : PropKey) (val : JSValue) :
    Option (JSValue × St) :=
  let s0 := if s.dev && (isUndef target || isPrimitive target) then warn s else s
  match target with
  | .prim _ => none
  | .ref a =>
    match heapGet s0 a with
    | none => none
    | some o =>
      if o.kind = .arr ∧ isValidArrayIndex k = true then
        match k with
        | .idx n =>
          let s1 := heapSet s0 a { o with elems := padTo o.elems (max o.elems.length n) }
          (callArrayMethod fuel s1 a .splice [.prim (.num n), .prim (.num 1), val]).map
            fun p => (val, p.2)
        | .s _ => none
      else
        if keyIn o k && !(objectProtoKeys.contains (keyStr k)) then
          (jsAssign fuel s0 a k val).map fun s1 => (val, s1)
        else if o.isVue then
          some (val, if s0.dev then warn s0 else s0)
        else
          match o.obId with
          | some ob =>
            match obsGet s0 ob with
            | none => none
            | some orec =>
              if orec.vmCount > 0 then some (val, if s0.dev then warn s0 else s0)
              else
                (exec fuel s0 (.defineReactiveReq orec.value (keyStr k) (some val) false)).map
                  fun p => (val, depNotify p.2 orec.depId)
          | none => (jsAssign fuel s0 a k val).map fun s1 => (val, s1)

/-- Embedding of the `remove` util used by `Dep.prototype.removeSub`:
delete the first occurrence, no-op when absent. -/
def removeFirst : List WId → WId → List WId
  | [], _ => []
  | x :: rest, w => if x = w then rest else x :: removeFirst rest w

/-- Standalone model of a `Dep` instance (dep.js) for the notification
ordering and snapshot claims. -/
structure DepM where
  id : Nat
  subs : List WId
deriving DecidableEq, Repr

/-- Embedding of `Dep.prototype.addSub`: append, no deduplication. -/
def DepM.addSub (d : DepM) (w : WId) : DepM := { d with subs := d.subs ++ [w] }

/-- Embedding of `Dep.prototype.removeSub`: remove the first occurrence. -/
def DepM.removeSub (d : DepM) (w : WId) : DepM := { d with subs := removeFirst d.subs w }

/-- Embedding of `Dep.prototype.notify` parameterised over the consumers'
state and behaviour: `σ` is the ambient state holding (at least) the
subscriber list read through `getSubs`, and `update w` is the external
watcher `w`'s `update()` body, which may mutate that state arbitrarily —
including subscribing or unsubscribing. `notify` snapshots `this.subs` by
copy, sorts the snapshot ascending by watcher id exactly when `dev && !async`,
then dispatches `update()` over the resulting order; the returned list is the
dispatch order. -/
def depNotifyRun {σ : Type} (dev async : Bool) (getSubs : σ → List WId)
    (update : WId → σ → σ) (s : σ) : σ × List WId :=
  let order := notifyOrder dev async (getSubs s)
  (order.foldl (fun st w => update w st) s, order)

/-- Setting a list cell to the value it already holds is the identity. -/
theorem list_set_same {α : Type} : ∀ (l : List α) (n : Nat) (x : α),
    l.get? n = some x → l.set n x = l := by
  intro l
  induction l with
  | nil => intro n x h; simp at h
  | cons a rest ih =>
    intro n x h
    cases n with
    | zero =>
      simp only [List.get?] at h
      injection h with h
      simp [List.set, h]
    | succ n =>
      simp only [List.get?] at h
      simp [List.set, ih n x h]

/-- Re-storing the field a property table already holds is the identity. -/
theorem fSet_same : ∀ (l : List (String × Field)) (k : String) (f : Field),
    fGet l k = some f → fSet l k f = l := by
  intro l
  induction l with
  | nil => intro k f h; simp [fGet] at h
  | cons p rest ih =>
    intro k f h
    obtain ⟨k0, f0⟩ := p
    by_cases hk : k0 = k
    · subst hk
      simp [fGet] at h
      simp [fSet, h]
    · simp [fGet, hk] at h
      simp [fSet, hk, ih k f h]

/-- State relation for operations that only append to the `addDep` call log:
everything but `dependLog` is untouched, and `dependLog` is extended. -/
structure DependOnly (s s' : St) : Prop where
  heapEq : s'.heap = s.heap
  obsEq : s'.obs = s.obs
  depsEq : s'.deps = s.deps
  targetEq : s'.target = s.target
  soEq : s'.shouldObserve = s.shouldObserve
  ssrEq : s'.ssr = s.ssr
  devEq : s'.dev = s.dev
  asyncEq : s'.async = s.async
  warnEq : s'.warnCount = s.warnCount
  notifyEq : s'.notifyLog = s.notifyLog
  depExt : ∃ δ, s'.dependLog = s.dependLog ++ δ

theorem dependOnly_refl {s : St} : DependOnly s s :=
  ⟨rfl, rfl, rfl, rfl, rfl, rfl, rfl, rfl, rfl, rfl, ⟨[], by simp⟩⟩

theorem dependOnly_trans {s1 s2 s3 : St} (h1 : DependOnly s1 s2)
    (h2 : DependOnly s2 s3) : DependOnly s1 s3 := by
  obtain ⟨d1, hd1⟩ := h1.depExt
  obtain ⟨d2, hd2⟩ := h2.depExt
  exact ⟨h2.heapEq.trans h1.heapEq, h2.obsEq.trans h1.obsEq,
    h2.depsEq.trans h1.depsEq, h2.targetEq.trans h1.targetEq,
    h2.soEq.trans h1.soEq, h2.ssrEq.trans h1.ssrEq, h2.devEq.trans h1.devEq,
    h2.asyncEq.trans h1.asyncEq, h2.warnEq.trans h1.warnEq,
    h2.notifyEq.trans h1.notifyEq,
    ⟨d1 ++ d2, by rw [hd2, hd1, List.append_assoc]⟩⟩

/-- The `depend` primitive only appends to the dependency log. -/
theorem depend_dependOnly (s : St) (d : DepId) : DependOnly s (depend s d) := by
  unfold depend
  split
  · exact ⟨rfl, rfl, rfl, rfl, rfl, rfl, rfl, rfl, rfl, rfl, ⟨[(_, d)], rfl⟩⟩
  · exact dependOnly_refl

/-- A successful `dependArray` run only appends to the dependency log. -/
theorem dependArray_dependOnly : ∀ (fuel : Nat) (items : List JSValue) (s s' : St),
    dependArray fuel s items = some s' → DependOnly s s' := by
  intro fuel
  induction fuel with
  | zero => intro items s s' h; simp [dependArray] at h
  | succ fuel ih =>
    intro items s s' h
    cases items with
    | nil =>
      simp [dependArray] at h
      exact h ▸ dependOnly_refl
    | cons e rest =>
      simp only [dependArray, Option.bind_eq_some] at h
      obtain ⟨s1, h1, s2, h2, h3⟩ := h
      have step1 : DependOnly s s1 := by
        split at h1
        · injection h1 with h1; exact h1 ▸ dependOnly_refl
        · split at h1
          · exact absurd h1 (by simp)
          · split at h1
            · injection h1 with h1; exact h1 ▸ dependOnly_refl
            · split at h1
              · exact absurd h1 (by simp)
              · injection h1 with h1
                exact h1 ▸ depend_dependOnly s _
      have step2 : DependOnly s1 s2 := by
        split at h2
        · injection h2 with h2; exact h2 ▸ dependOnly_refl
        · split at h2
          · exact absurd h2 (by simp)
          · split at h2
            · exact ih _ s1 s2 h2
            · injection h2 with h2; exact h2 ▸ dependOnly_refl
      exact dependOnly_trans (dependOnly_trans step1 step2) (ih rest s2 s' h3)

/-- A successful `getterTail` run returns the value it was given and only
appends to the dependency log. -/
theorem getterTail_dependOnly : ∀ (fuel : Nat) (s : St) (d : DepId)
    (co : Option ObId) (v v' : JSValue) (s' : St),
    getterTail fuel s d co v = some (v', s') → v' = v ∧ DependOnly s s' := by
  intro fuel s d co v v' s' h
  unfold getterTail at h
  split at h
  · injection h with h
    injection h with h1 h2
    exact ⟨h1.symm, h2 ▸ dependOnly_refl⟩
  · dsimp only at h
    split at h
    · injection h with h
      injection h with h1 h2
      exact ⟨h1.symm, h2 ▸ depend_dependOnly s d⟩
    · split at h
      · exact absurd h (by simp)
      · rename_i ob orec hob
        split at h
        · injection h with h
          injection h with h1 h2
          exact ⟨h1.symm,
            h2 ▸ dependOnly_trans (depend_dependOnly s d) (depend_dependOnly _ orec.depId)⟩
        · split at h
          · exact absurd h (by simp)
          · split at h
            · simp only [Option.map_eq_some'] at h
              obtain ⟨s3, h3, h4⟩ := h
              injection h4 with h4a h4b
              refine ⟨h4a.symm, ?_⟩
              refine dependOnly_trans (dependOnly_trans (depend_dependOnly s d)
                (depend_dependOnly _ orec.depId)) ?_
              exact h4b ▸ dependArray_dependOnly fuel _ _ s3 h3
            · injection h with h
              injection h with h1 h2
              exact ⟨h1.symm,
                h2 ▸ dependOnly_trans (depend_dependOnly s d) (depend_dependOnly _ orec.depId)⟩

/-- A successful reactive read returns the value held by the accessor chain
and only appends to the dependency log. -/
theorem reactiveGetter_dependOnly : ∀ (r : RProp) (fuel : Nat) (s : St)
    (v : JSValue) (s' : St),
    reactiveGetter fuel s r = some (v, s') → v = rpropValue r ∧ DependOnly s s' := by
  intro r
  induction r with
  | base d v0 co sh =>
    intro fuel s v s' h
    simp only [reactiveGetter] at h
    exact getterTail_dependOnly fuel s d co v0 v s' h
  | over d inner co sh ih =>
    intro fuel s v s' h
    simp only [reactiveGetter, Option.bind_eq_some] at h
    obtain ⟨⟨v1, s1⟩, h1, h2⟩ := h
    obtain ⟨hv1, hs1⟩ := ih fuel s v1 s1 h1
    obtain ⟨hv, hs⟩ := getterTail_dependOnly fuel s1 d co v1 v s' h2
    exact ⟨hv.trans hv1, dependOnly_trans hs1 hs⟩

theorem list_get_set_self {α : Type} : ∀ (l : List α) (n : Nat) (x : α),
    n < l.length → (l.set n x).get? n = some x := by
  intro l
  induction l with
  | nil => intro n x h; simp at h
  | cons a rest ih =>
    intro n x h
    cases n with
    | zero => rfl
    | succ n =>
      have hn : n < rest.length := by
        simp only [List.length_cons] at h; omega
      simp only [List.set, List.get?]
      exact ih n x hn

theorem list_get_set_other {α : Type} : ∀ (l : List α) (n m : Nat) (x : α),
    m ≠ n → (l.set n x).get? m = l.get? m := by
  intro l
  induction l with
  | nil => intro n m x h; simp [List.set]
  | cons a rest ih =>
    intro n m x h
    cases n with
    | zero =>
      cases m with
      | zero => exact absurd rfl h
      | succ m => rfl
    | succ n =>
      cases m with
      | zero => rfl
      | succ m =>
        simp only [List.set, List.get?]
        exact ih n m x (by omega)

theorem list_get_append_left {α : Type} : ∀ (l1 l2 : List α) (n : Nat),
    n < l1.length → (l1 ++ l2).get? n = l1.get? n := by
  intro l1
  induction l1 with
  | nil => intro l2 n h; simp at h
  | cons a rest ih =>
    intro l2 n h
    cases n with
    | zero => simp [List.get?]
    | succ n =>
      simp only [List.cons_append, List.get?]
      exact ih l2 n (by simpa using h)

/-- Evolution relation covering every state change the recursive observer
group (`exec`) can make: the heap keeps its length and every object keeps its
kind, element list, `_isVue` flag and extensibility (only property tables and
the `__ob__` marker change); observer records keep their dep and value
(only `vmCount` moves); existing dep records are untouched; no warning is
emitted and no dep is notified; the configuration flags and `Dep.target` are
untouched. -/
structure Evol (s s' : St) : Prop where
  heapLen : s'.heap.length = s.heap.length
  objs : ∀ x o, heapGet s x = some o → ∃ o', heapGet s' x = some o' ∧
    o'.kind = o.kind ∧ o'.elems = o.elems ∧ o'.isVue = o.isVue ∧
    o'.extensible = o.extensible
  obsPres : ∀ i r, obsGet s i = some r → ∃ r', obsGet s' i = some r' ∧
    r'.depId = r.depId ∧ r'.value = r.value
  depsPres : ∀ i d, depsGet s i = some d → depsGet s' i = some d
  notifyEq : s'.notifyLog = s.notifyLog
  warnEq : s'.warnCount = s.warnCount
  soEq : s'.shouldObserve = s.shouldObserve
  ssrEq : s'.ssr = s.ssr
  devEq : s'.dev = s.dev
  asyncEq : s'.async = s.async
  targetEq : s'.target = s.target

theorem evol_refl {s : St} : Evol s s :=
  ⟨rfl, fun x o h => ⟨o, h, rfl, rfl, rfl, rfl⟩, fun i r h => ⟨r, h, rfl, rfl⟩,
   fun _ _ h => h, rfl, rfl, rfl, rfl, rfl, rfl, rfl⟩

theorem evol_trans {s1 s2 s3 : St} (h1 : Evol s1 s2) (h2 : Evol s2 s3) :
    Evol s1 s3 := by
  refine ⟨h2.heapLen.trans h1.heapLen, ?_, ?_, ?_,
    h2.notifyEq.trans h1.notifyEq, h2.warnEq.trans h1.warnEq,
    h2.soEq.trans h1.soEq, h2.ssrEq.trans h1.ssrEq, h2.devEq.trans h1.devEq,
    h2.asyncEq.trans h1.asyncEq, h2.targetEq.trans h1.targetEq⟩
  · intro x o h
    obtain ⟨o1, ho1, k1, e1, v1, x1⟩ := h1.objs x o h
    obtain ⟨o2, ho2, k2, e2, v2, x2⟩ := h2.objs x o1 ho1
    exact ⟨o2, ho2, k2.trans k1, e2.trans e1, v2.trans v1, x2.trans x1⟩
  · intro i r h
    obtain ⟨r1, hr1, d1, v1⟩ := h1.obsPres i r h
    obtain ⟨r2, hr2, d2, v2⟩ := h2.obsPres i r1 hr1
    exact ⟨r2, hr2, d2.trans d1, v2.trans v1⟩
  · intro i d h
    exact h2.depsPres i d (h1.depsPres i d h)

theorem evol_of_dependOnly {s s' : St} (h : DependOnly s s') : Evol s s' := by
  refine ⟨by rw [h.heapEq], ?_, ?_, ?_, h.notifyEq, h.warnEq, h.soEq, h.ssrEq,
    h.devEq, h.asyncEq, h.targetEq⟩
  · intro x o hx
    refine ⟨o, ?_, rfl, rfl, rfl, rfl⟩
    unfold heapGet at hx ⊢
    rw [h.heapEq]; exact hx
  · intro i r hr
    refine ⟨r, ?_, rfl, rfl⟩
    unfold obsGet at hr ⊢
    rw [h.obsEq]; exact hr
  · intro i d hd
    unfold depsGet at hd ⊢
    rw [h.depsEq]; exact hd

theorem list_get_lt {α : Type} {l : List α} {n : Nat} {x : α}
    (h : l.get? n = some x) : n < l.length := by
  by_contra hn
  push_neg at hn
  rw [List.get?_eq_none.mpr hn] at h
  exact absurd h (by simp)

theorem evol_depsAppend {s : St} {l : List DepRec} :
    Evol s { s with deps := s.deps ++ l } := by
  refine ⟨rfl, fun x o h => ⟨o, h, rfl, rfl, rfl, rfl⟩,
    fun i r h => ⟨r, h, rfl, rfl⟩, ?_, rfl, rfl, rfl, rfl, rfl, rfl, rfl⟩
  intro i d h
  unfold depsGet at h ⊢
  simp only
  rw [list_get_append_left _ _ _ (list_get_lt h)]
  exact h

theorem evol_obsAppend {s : St} {l : List ObRec} :
    Evol s { s with obs := s.obs ++ l } := by
  refine ⟨rfl, fun x o h => ⟨o, h, rfl, rfl, rfl, rfl⟩, ?_,
    fun i d h => h, rfl, rfl, rfl, rfl, rfl, rfl, rfl⟩
  intro i r h
  refine ⟨r, ?_, rfl, rfl⟩
  unfold obsGet at h ⊢
  simp only
  rw [list_get_append_left _ _ _ (list_get_lt h)]
  exact h

theorem evol_heapSet {s : St} {a : Addr} {o o' : HObject}
    (h : heapGet s a = some o) (hk : o'.kind = o.kind) (he : o'.elems = o.elems)
    (hv : o'.isVue = o.isVue) (hx : o'.extensible = o.extensible) :
    Evol s (heapSet s a o') := by
  refine ⟨by simp [heapSet], ?_, fun i r hr => ⟨r, hr, rfl, rfl⟩,
    fun i d hd => hd, rfl, rfl, rfl, rfl, rfl, rfl, rfl⟩
  intro x ox hox
  by_cases hxa : x = a
  · subst hxa
    rw [h] at hox
    injection hox with hox
    subst hox
    refine ⟨o', ?_, hk, he, hv, hx⟩
    unfold heapGet heapSet
    exact list_get_set_self _ _ _ (list_get_lt h)
  · refine ⟨ox, ?_, rfl, rfl, rfl, rfl⟩
    unfold heapGet heapSet
    simp only
    rw [list_get_set_other _ _ _ _ hxa]
    exact hox

theorem evol_heapSetField (s : St) (a : Addr) (key : String) (f : Field) :
    Evol s (heapSetField s a key f) := by
  unfold heapSetField
  split
  · exact evol_refl
  · rename_i o heq
    exact evol_heapSet heq rfl rfl rfl rfl

theorem evol_obsSet {s : St} {i : ObId} {r r' : ObRec}
    (h : obsGet s i = some r) (hd : r'.depId = r.depId) (hv : r'.value = r.value) :
    Evol s (obsSet s i r') := by
  refine ⟨rfl, fun x o hx => ⟨o, hx, rfl, rfl, rfl, rfl⟩, ?_,
    fun j d hj => hj, rfl, rfl, rfl, rfl, rfl, rfl, rfl⟩
  intro j q hq
  by_cases hji : j = i
  · subst hji
    rw [h] at hq
    injection hq with hq
    subst hq
    refine ⟨r', ?_, hd, hv⟩
    unfold obsGet obsSet
    exact list_get_set_self _ _ _ (list_get_lt h)
  · refine ⟨q, ?_, rfl, rfl⟩
    unfold obsGet obsSet
    simp only
    rw [list_get_set_other _ _ _ _ hji]
    exact hq

theorem rootBump_evol {s : St} {obOpt : Option ObId} {asRoot : Bool}
    {r : Option ObId} {s' : St} (h : rootBump s obOpt asRoot = some (r, s')) :
    Evol s s' ∧ r = obOpt := by
  unfold rootBump at h
  split at h
  · rename_i ob
    split at h
    · exact absurd h (by simp)
    · rename_i orec hob
      injection h with h
      injection h with h1 h2
      exact ⟨h2 ▸ evol_obsSet hob rfl rfl, h1.symm⟩
  · injection h with h
    injection h with h1 h2
    exact ⟨h2 ▸ evol_refl, h1.symm⟩

/-- Every successful run of the recursive observer group evolves the state
within `Evol`: in particular it emits no warning and notifies no dep. -/
theorem exec_evol : ∀ (fuel : Nat) (s : St) (req : Req) (r : Option ObId) (s' : St),
    exec fuel s req = some (r, s') → Evol s s' := by
  intro fuel
  induction fuel with
  | zero => intro s req r s' h; simp [exec] at h
  | succ fuel ih =>
    intro s req r s' h
    cases req with
    | observeReq v asRoot =>
      simp only [exec] at h
      split at h
      · injection h with h
        injection h with h1 h2
        exact h2 ▸ evol_refl
      · split at h
        · simp at h
        · split at h
          · injection h with h
            injection h with h1 h2
            exact h2 ▸ evol_refl
          · split at h
            · exact (rootBump_evol h).1
            · split at h
              · simp only [Option.bind_eq_some] at h
                obtain ⟨⟨r1, s1⟩, h1, h2⟩ := h
                exact evol_trans (ih _ _ _ _ h1) (rootBump_evol h2).1
              · exact (rootBump_evol h).1
    | newObserverReq a =>
      simp only [exec] at h
      split at h
      · simp at h
      · rename_i o ho
        split at h
        · simp only [Option.map_eq_some'] at h
          obtain ⟨⟨r4, s4⟩, h4, h5⟩ := h
          injection h5 with h5a h5b
          subst h5b
          refine evol_trans ?_ (ih _ _ _ _ h4)
          exact evol_trans (evol_trans evol_depsAppend evol_obsAppend)
            (evol_heapSet ho rfl rfl rfl rfl)
        · simp only [Option.map_eq_some'] at h
          obtain ⟨⟨r4, s4⟩, h4, h5⟩ := h
          injection h5 with h5a h5b
          subst h5b
          refine evol_trans ?_ (ih _ _ _ _ h4)
          exact evol_trans (evol_trans evol_depsAppend evol_obsAppend)
            (evol_heapSet ho rfl rfl rfl rfl)
    | walkReq a keys =>
      simp only [exec] at h
      split at h
      · injection h with h
        injection h with h1 h2
        exact h2 ▸ evol_refl
      · simp only [Option.bind_eq_some] at h
        obtain ⟨⟨r1, s1⟩, h1, h2⟩ := h
        exact evol_trans (ih _ _ _ _ h1) (ih _ _ _ _ h2)
    | observeArrayReq items =>
      simp only [exec] at h
      split at h
      · injection h with h
        injection h with h1 h2
        exact h2 ▸ evol_refl
      · simp only [Option.bind_eq_some] at h
        obtain ⟨⟨r1, s1⟩, h1, h2⟩ := h
        exact evol_trans (ih _ _ _ _ h1) (ih _ _ _ _ h2)
    | defineReactiveReq a key valArg shallow =>
      simp only [exec] at h
      split at h
      · simp at h
      · rename_i o ho
        split at h
        · injection h with h
          injection h with h1 h2
          exact h2 ▸ evol_depsAppend
        · simp only [Option.bind_eq_some] at h
          obtain ⟨⟨v1, s1⟩, h1, ⟨co2, s2⟩, h2, h3⟩ := h
          injection h3 with h3
          injection h3 with h3a h3b
          have e1 : Evol s s1 := by
            split at h1
            · injection h1 with h1
              injection h1 with h1a h1b
              exact h1b ▸ evol_depsAppend
            · split at h1
              · obtain ⟨hv1, hdep⟩ := reactiveGetter_dependOnly _ _ _ _ _ h1
                exact evol_trans evol_depsAppend (evol_of_dependOnly hdep)
              · injection h1 with h1
                injection h1 with h1a h1b
                exact h1b ▸ evol_depsAppend
              · injection h1 with h1
                injection h1 with h1a h1b
                exact h1b ▸ evol_depsAppend
          have e2 : Evol s1 s2 := by
            split at h2
            · injection h2 with h2
              injection h2 with h2a h2b
              exact h2b ▸ evol_refl
            · exact ih _ _ _ _ h2
          exact evol_trans (evol_trans e1 e2) (h3b ▸ evol_heapSetField s2 a key _)

theorem obIdAt_heapSetField {s : St} {a : Addr} {key : String} {f : Field}
    (x : Addr) : obIdAt (heapSetField s a key f) x = obIdAt s x := by
  unfold heapSetField
  split
  · rfl
  · rename_i o heq
    unfold obIdAt heapGet heapSet
    simp only
    by_cases hxa : x = a
    · subst hxa
      rw [list_get_set_self _ _ _ (list_get_lt heq)]
      unfold heapGet at heq
      rw [heq]
      rfl
    · rw [list_get_set_other _ _ _ _ hxa]

theorem obIdAt_heapSet_other {s : St} {a : Addr} {o' : HObject} {x : Addr}
    (hxa : x ≠ a) : obIdAt (heapSet s a o') x = obIdAt s x := by
  unfold obIdAt heapGet heapSet
  simp only
  rw [list_get_set_other _ _ _ _ hxa]

theorem rootBump_heapEq {s : St} {obOpt : Option ObId} {asRoot : Bool}
    {r : Option ObId} {s' : St} (h : rootBump s obOpt asRoot = some (r, s')) :
    s'.heap = s.heap := by
  unfold rootBump at h
  split at h
  · split at h
    · simp at h
    · injection h with h
      injection h with h1 h2
      rw [← h2]
      rfl
  · injection h with h
    injection h with h1 h2
    rw [← h2]

/-- The recursive observer group never removes or replaces an existing
`__ob__` marker: the only marker write is the one the `Observer` constructor
performs on its own target (which `observe` only reaches for unmarked
values). -/
theorem exec_obPres : ∀ (fuel : Nat) (s : St) (req : Req) (r : Option ObId)
    (s' : St), exec fuel s req = some (r, s') →
    ∀ x ob, obIdAt s x = some ob →
      obIdAt s' x = some ob ∨ ∃ a, req = .newObserverReq a ∧ x = a := by
  intro fuel
  induction fuel with
  | zero => intro s req r s' h; simp [exec] at h
  | succ fuel ih =>
    intro s req r s' h x ob hx
    cases req with
    | observeReq v asRoot =>
      left
      simp only [exec] at h
      split at h
      · injection h with h
        injection h with h1 h2
        exact h2 ▸ hx
      · rename_i a
        split at h
        · simp at h
        · rename_i o ho
          split at h
          · injection h with h
            injection h with h1 h2
            exact h2 ▸ hx
          · split at h
            · have hh := rootBump_heapEq h
              unfold obIdAt heapGet
              rw [hh]
              exact hx
            · rename_i hob
              split at h
              · simp only [Option.bind_eq_some] at h
                obtain ⟨⟨r1, s1⟩, h1, h2⟩ := h
                have hxa : x ≠ a := by
                  intro hc
                  subst hc
                  unfold obIdAt at hx
                  rw [ho] at hx
                  simp [hob] at hx
                rcases ih _ _ _ _ h1 x ob hx with hpres | ⟨a1, ha1, hxa1⟩
                · have hh := rootBump_heapEq h2
                  unfold obIdAt heapGet
                  rw [hh]
                  exact hpres
                · injection ha1 with ha1
                  exact absurd (ha1 ▸ hxa1) hxa
              · have hh := rootBump_heapEq h
                unfold obIdAt heapGet
                rw [hh]
                exact hx
    | newObserverReq a =>
      by_cases hxa : x = a
      · right
        exact ⟨a, rfl, hxa⟩
      · left
        simp only [exec] at h
        split at h
        · simp at h
        · rename_i o ho
          split at h
          · simp only [Option.map_eq_some'] at h
            obtain ⟨⟨r4, s4⟩, h4, h5⟩ := h
            injection h5 with h5a h5b
            subst h5b
            rcases ih _ _ _ _ h4 x ob
                (by rw [obIdAt_heapSet_other hxa]; exact hx) with
              hpres | ⟨a1, ha1, _⟩
            · exact hpres
            · exact absurd ha1 (by simp)
          · simp only [Option.map_eq_some'] at h
            obtain ⟨⟨r4, s4⟩, h4, h5⟩ := h
            injection h5 with h5a h5b
            subst h5b
            rcases ih _ _ _ _ h4 x ob
                (by rw [obIdAt_heapSet_other hxa]; exact hx) with
              hpres | ⟨a1, ha1, _⟩
            · exact hpres
            · exact absurd ha1 (by simp)
    | walkReq a keys =>
      left
      simp only [exec] at h
      split at h
      · injection h with h
        injection h with h1 h2
        exact h2 ▸ hx
      · simp only [Option.bind_eq_some] at h
        obtain ⟨⟨r1, s1⟩, h1, h2⟩ := h
        rcases ih _ _ _ _ h1 x ob hx with hp1 | ⟨a1, ha1, _⟩
        · rcases ih _ _ _ _ h2 x ob hp1 with hp2 | ⟨a2, ha2, _⟩
          · exact hp2
          · exact absurd ha2 (by simp)
        · exact absurd ha1 (by simp)
    | observeArrayReq items =>
      left
      simp only [exec] at h
      split at h
      · injection h with h
        injection h with h1 h2
        exact h2 ▸ hx
      · simp only [Option.bind_eq_some] at h
        obtain ⟨⟨r1, s1⟩, h1, h2⟩ := h
        rcases ih _ _ _ _ h1 x ob hx with hp1 | ⟨a1, ha1, _⟩
        · rcases ih _ _ _ _ h2 x ob hp1 with hp2 | ⟨a2, ha2, _⟩
          · exact hp2
          · exact absurd ha2 (by simp)
        · exact absurd ha1 (by simp)
    | defineReactiveReq a key valArg shallow =>
      left
      simp only [exec] at h
      split at h
      · simp at h
      · rename_i o ho
        split at h
        · injection h with h
          injection h with h1 h2
          exact h2 ▸ hx
        · simp only [Option.bind_eq_some] at h
          obtain ⟨⟨v1, s1⟩, h1, ⟨co2, s2⟩, h2, h3⟩ := h
          injection h3 with h3
          injection h3 with h3a h3b
          have p1 : obIdAt s1 x = some ob := by
            split at h1
            · injection h1 with h1
              injection h1 with h1a h1b
              exact h1b ▸ hx
            · split at h1
              · obtain ⟨hv1, hdep⟩ := reactiveGetter_dependOnly _ _ _ _ _ h1
                unfold obIdAt heapGet
                rw [hdep.heapEq]
                exact hx
              · injection h1 with h1
                injection h1 with h1a h1b
                exact h1b ▸ hx
              · injection h1 with h1
                injection h1 with h1a h1b
                exact h1b ▸ hx
          have p2 : obIdAt s2 x = some ob := by
            split at h2
            · injection h2 with h2
              injection h2 with h2a h2b
              exact h2b ▸ p1
            · rcases ih _ _ _ _ h2 x ob p1 with hp | ⟨a1, ha1, _⟩
              · exact hp
              · exact absurd ha1 (by simp)
          rw [← h3b, obIdAt_heapSetField]
          exact p2

/-- The `Observer` constructor attaches the `__ob__` marker to its target and
returns that observer. -/
theorem exec_newObserver_sets : ∀ (fuel : Nat) (s : St) (a : Addr)
    (r : Option ObId) (s' : St), exec fuel s (.newObserverReq a) = some (r, s') →
    ∃ ob, r = some ob ∧ obIdAt s' a = some ob := by
  intro fuel s a r s' h
  cases fuel with
  | zero => simp [exec] at h
  | succ fuel =>
    simp only [exec] at h
    split at h
    · simp at h
    · rename_i o ho
      have hmark : ∀ (s2 : St), s2.heap = s.heap.set a { o with obId := some s.obs.length } →
          obIdAt s2 a = some s.obs.length := by
        intro s2 hs2
        unfold obIdAt heapGet
        rw [hs2, list_get_set_self _ _ _ (list_get_lt ho)]
        rfl
      split at h
      · simp only [Option.map_eq_some'] at h
        obtain ⟨⟨r4, s4⟩, h4, h5⟩ := h
        injection h5 with h5a h5b
        subst h5b
        refine ⟨s.obs.length, h5a.symm, ?_⟩
        rcases exec_obPres _ _ _ _ _ h4 a s.obs.length (hmark _ rfl) with hp | ⟨a1, ha1, _⟩
        · exact hp
        · exact absurd ha1 (by simp)
      · simp only [Option.map_eq_some'] at h
        obtain ⟨⟨r4, s4⟩, h4, h5⟩ := h
        injection h5 with h5a h5b
        subst h5b
        refine ⟨s.obs.length, h5a.symm, ?_⟩
        rcases exec_obPres _ _ _ _ _ h4 a s.obs.length (hmark _ rfl) with hp | ⟨a1, ha1, _⟩
        · exact hp
        · exact absurd ha1 (by simp)

/-- When `observe` returns an observer for a reference, that observer is the
one recorded in the value's `__ob__` marker afterwards. -/
theorem exec_observe_marks : ∀ (fuel : Nat) (s : St) (a : Addr) (asRoot : Bool)
    (ob : ObId) (s' : St),
    exec fuel s (.observeReq (.ref a) asRoot) = some (some ob, s') →
    obIdAt s' a = some ob := by
  intro fuel s a asRoot ob s' h
  cases fuel with
  | zero => simp [exec] at h
  | succ fuel =>
    simp only [exec] at h
    split at h
    · simp at h
    · rename_i o ho
      split at h
      · injection h with h
        injection h with h1 h2
        exact absurd h1 (by simp)
      · split at h
        · rename_i ob0 hob0
          obtain ⟨he, hr⟩ := rootBump_evol h
          injection hr with hr
          subst hr
          unfold obIdAt heapGet
          rw [rootBump_heapEq h]
          unfold heapGet at ho
          rw [ho]
          simp [hob0]
        · rename_i hobnone
          split at h
          · simp only [Option.bind_eq_some] at h
            obtain ⟨⟨r1, s1⟩, h1, h2⟩ := h
            obtain ⟨ob1, hob1, hset⟩ := exec_newObserver_sets _ _ _ _ _ h1
            obtain ⟨he2, hr2⟩ := rootBump_evol h2
            subst hob1
            injection hr2 with hr2
            subst hr2
            unfold obIdAt heapGet
            rw [rootBump_heapEq h2]
            exact hset
          · obtain ⟨he, hr⟩ := rootBump_evol h
            exact absurd hr (by simp)

/-- `observeArray` leaves every already-observed element observed and attaches
an observer to every eligible unobserved element. -/
theorem exec_observeArray_marks : ∀ (fuel : Nat) (s : St) (items : List JSValue)
    (r : Option ObId) (s' : St),
    exec fuel s (.observeArrayReq items) = some (r, s') →
    ∀ b o, (JSValue.ref b) ∈ items → heapGet s b = some o →
    (o.obId.isSome = true ∨
      (s.shouldObserve = true ∧ s.ssr = false ∧ (o.kind = .arr ∨ o.kind = .plain) ∧
       o.extensible = true ∧ o.isVue = false)) →
    (obIdAt s' b).isSome = true := by
  intro fuel
  induction fuel with
  | zero => intro s items r s' h; simp [exec] at h
  | succ fuel ih =>
    intro s items r s' h b o hmem ho helig
    cases items with
    | nil => simp at hmem
    | cons v rest =>
      simp only [exec, Option.bind_eq_some] at h
      obtain ⟨⟨r1, s1⟩, h1, h2⟩ := h
      have pres1 : ∀ x oc, obIdAt s1 x = some oc → (obIdAt s' x).isSome = true := by
        intro x oc hoc
        rcases exec_obPres _ _ _ _ _ h2 x oc hoc with hp | ⟨a1, ha1, _⟩
        · rw [hp]; rfl
        · exact absurd ha1 (by simp)
      rcases List.mem_cons.mp hmem with hv | hrest
      · subst hv
        rcases hmark : o.obId with _ | ob0
        · rcases helig with hs | ⟨hso, hssr, hkind, hext, hvue⟩
          · rw [hmark] at hs; simp at hs
          · cases fuel with
            | zero => simp [exec] at h1
            | succ fuel2 =>
              simp only [exec] at h1
              rw [ho] at h1
              simp only at h1
              have hnv : ¬ o.kind = .vnode := by
                rcases hkind with hk | hk <;> simp [hk]
              rw [if_neg hnv] at h1
              rw [hmark] at h1
              simp only at h1
              rw [if_pos ⟨hso, by simp [hssr], hkind, hext, by simp [hvue]⟩] at h1
              simp only [Option.bind_eq_some] at h1
              obtain ⟨⟨rn, sn⟩, hn1, hn2⟩ := h1
              obtain ⟨obn, hobn, hsetn⟩ := exec_newObserver_sets _ _ _ _ _ hn1
              have hs1 : obIdAt s1 b = some obn := by
                have hh := rootBump_heapEq hn2
                unfold obIdAt heapGet
                rw [hh]
                exact hsetn
              exact pres1 b obn hs1
        · have hs0 : obIdAt s b = some ob0 := by
            unfold obIdAt
            rw [ho]
            simp [hmark]
          rcases exec_obPres _ _ _ _ _ h1 b ob0 hs0 with hp | ⟨a1, ha1, _⟩
          · exact pres1 b ob0 hp
          · exact absurd ha1 (by simp)
      · have hevol := exec_evol _ _ _ _ _ h1
        obtain ⟨o1, ho1, hk1, he1, hv1, hx1⟩ := hevol.objs b o ho
        rcases hmark1 : o1.obId with _ | obm
        · refine ih s1 rest r s' h2 b o1 hrest ho1 (Or.inr ?_)
          rcases helig with hs | ⟨hso, hssr, hkind, hext, hvue⟩
          · rcases hmark0 : o.obId with _ | obz
            · rw [hmark0] at hs; simp at hs
            · have hs0 : obIdAt s b = some obz := by
                unfold obIdAt
                rw [ho]
                simp [hmark0]
              rcases exec_obPres _ _ _ _ _ h1 b obz hs0 with hp | ⟨a1, ha1, _⟩
              · unfold obIdAt at hp
                rw [ho1] at hp
                simp [hmark1] at hp
              · exact absurd ha1 (by simp)
          · exact ⟨hevol.soEq.trans hso, hevol.ssrEq.trans hssr,
              hk1 ▸ hkind, hx1.trans hext, hv1.trans hvue⟩
        · refine ih s1 rest r s' h2 b o1 hrest ho1 (Or.inl ?_)
          rw [hmark1]
          rfl

/-- A successful `observe` of a reference that produced an observer implies
the referenced object exists and is not a VNode. -/
theorem exec_observe_some_kind : ∀ (fuel : Nat) (s : St) (a : Addr)
    (asRoot : Bool) (ob : ObId) (s' : St),
    exec fuel s (.observeReq (.ref a) asRoot) = some (some ob, s') →
    ∃ o, heapGet s a = some o ∧ o.kind ≠ .vnode := by
  intro fuel s a asRoot ob s' h
  cases fuel with
  | zero => simp [exec] at h
  | succ fuel =>
    simp only [exec] at h
    split at h
    · simp at h
    · rename_i o ho
      split at h
      · injection h with h
        injection h with h1 h2
        exact absurd h1 (by simp)
      · exact ⟨o, ho, by assumption⟩

/-- C10: a value already carrying an observer marker gets that observer back
from `observe` regardless of the `shouldObserve` and server-rendering flags,
because the marker check precedes those gates; the state is untouched. -/
theorem c10_marker_beats_gating (fuel : Nat) (s : St) (a : Addr) (o : HObject)
    (ob : ObId) (ho : heapGet s a = some o) (hk : o.kind ≠ .vnode)
    (hob : o.obId = some ob) :
    observe (fuel + 1) s (.ref a) false = some (some ob, s) := by
  unfold observe
  simp only [exec, ho]
  rw [if_neg hk, hob]
  rfl

/-- Witness for C10 at a concrete state in which observation is globally
disabled and server rendering is on, yet the marked object's observer is
still returned. -/
def c10State : St :=
  { heap := [⟨.plain, [("a", .data (.prim (.num 1)) true true)], [], some 0, false, true⟩],
    obs := [⟨0, 0, 0⟩], deps := [⟨[]⟩], target := none, shouldObserve := false,
    ssr := true, dev := true, async := false, warnCount := 0, dependLog := [],
    notifyLog := [] }

theorem c10_witness :
    observe 1 c10State (.ref 0) false = some (some 0, c10State) :=
  c10_marker_beats_gating 0 c10State 0
    ⟨.plain, [("a", .data (.prim (.num 1)) true true)], [], some 0, false, true⟩
    0 rfl (by decide) rfl

/-- C4: observation is idempotent: when `observe` succeeds in returning an
observer for a value, a second `observe` of the same value returns the
identical observer and leaves the state unchanged. -/
theorem c4_observe_idempotent (fuel1 fuel2 : Nat) (s s1 : St) (v : JSValue)
    (ob : ObId) (h : observe fuel1 s v false = some (some ob, s1)) :
    observe (fuel2 + 1) s1 v false = some (some ob, s1) := by
  cases v with
  | prim p =>
    exfalso
    cases fuel1 with
    | zero => simp [observe, exec] at h
    | succ f => simp [observe, exec] at h
  | ref a =>
    unfold observe at h
    have hmark : obIdAt s1 a = some ob := exec_observe_marks _ _ _ _ _ _ h
    obtain ⟨o, ho, hk⟩ := exec_observe_some_kind _ _ _ _ _ _ h
    have hevol := exec_evol _ _ _ _ _ h
    obtain ⟨o1, ho1, hk1, _, _, _⟩ := hevol.objs a o ho
    have hobid1 : o1.obId = some ob := by
      unfold obIdAt at hmark
      rw [ho1] at hmark
      simpa using hmark
    have hk1' : o1.kind ≠ .vnode := fun hc => hk (hk1 ▸ hc)
    unfold observe
    simp only [exec, ho1]
    rw [if_neg hk1', hobid1]
    rfl

/-- Witness for C4: observing a fresh plain object twice yields the same
observer both times. -/
def c4State : St :=
  { heap := [⟨.plain, [("a", .data (.prim (.num 1)) true true)], [], none, false, true⟩],
    obs := [], deps := [], target := none, shouldObserve := true, ssr := false,
    dev := true, async := false, warnCount := 0, dependLog := [], notifyLog := [] }

theorem c4_witness : ∃ s1 : St,
    observe 5 c4State (.ref 0) false = some (some 0, s1) ∧
    observe 5 s1 (.ref 0) false = some (some 0, s1) := by
  refine ⟨_, rfl, ?_⟩
  exact c4_observe_idempotent 5 4 c4State _ (.ref 0) 0 rfl

/-- Membership in the dispatch order implies membership in the snapshot the
order was computed from. -/
theorem notifyOrder_mem {dev async : Bool} {subs : List WId} {w : WId}
    (h : w ∈ notifyOrder dev async subs) : w ∈ subs := by
  unfold notifyOrder at h
  split at h
  · exact (List.mem_insertionSort _).mp h
  · exact h

/-- C2 counterexample: with synchronous (non-async) notification configured
but a production build, `notify` dispatches in raw subscription order — here
watcher 2 before watcher 1 — so the dispatch is not ascending by id, contrary
to the claim that synchronous configuration alone guarantees the sort. -/
theorem c2_counterexample :
    (depNotifyRun false false DepM.subs (fun _ d => d) (⟨0, [2, 1]⟩ : DepM)).2 =
      [2, 1] ∧ ¬ List.Sorted (· ≤ ·) ([2, 1] : List WId) := by
  constructor
  · rfl
  · decide

/-- C2 (amended): in a development build with `config.async` disabled,
`notify` dispatches `update()` over the snapshot sorted ascending by watcher
id — the dispatch order is the stable ascending sort of the subscriber
snapshot, which is sorted and a permutation of it — regardless of what the
consumers' `update` bodies do. -/
theorem c2_dev_sync_dispatch_sorted {σ : Type} (getSubs : σ → List WId)
    (update : WId → σ → σ) (s : σ) :
    (depNotifyRun true false getSubs update s).2 =
      List.insertionSort (· ≤ ·) (getSubs s) ∧
    List.Sorted (· ≤ ·) (depNotifyRun true false getSubs update s).2 ∧
    List.Perm (depNotifyRun true false getSubs update s).2 (getSubs s) := by
  refine ⟨rfl, ?_, ?_⟩
  · exact List.sorted_insertionSort _ _
  · exact List.perm_insertionSort _ _

/-- C8: `notify` dispatches over an immutable snapshot taken at call time:
the set and order of watchers receiving `update()` is a function of the
subscriber list at entry, identical for any two consumer behaviours (so
subscriptions or unsubscriptions performed by the consumers mid-pass cannot
change the current pass); every dispatch recipient was subscribed at entry;
and a following `notify` call reads the then-current subscriber list, so
mid-pass subscriptions take effect from the next pass. -/
theorem c8_notify_snapshot {σ : Type} (dev async : Bool)
    (getSubs : σ → List WId) (update update2 : WId → σ → σ) (s : σ) :
    (depNotifyRun dev async getSubs update s).2 =
      notifyOrder dev async (getSubs s) ∧
    (depNotifyRun dev async getSubs update s).2 =
      (depNotifyRun dev async getSubs update2 s).2 ∧
    (∀ w, w ∈ (depNotifyRun dev async getSubs update s).2 → w ∈ getSubs s) ∧
    (depNotifyRun dev async getSubs update
        (depNotifyRun dev async getSubs update s).1).2 =
      notifyOrder dev async
        (getSubs (depNotifyRun dev async getSubs update s).1) := by
  refine ⟨rfl, rfl, ?_, rfl⟩
  intro w hw
  exact notifyOrder_mem hw

/-- Witness for C8 at a concrete dep whose consumers subscribe new watchers
during dispatch: the pass still dispatches exactly the entry snapshot. -/
theorem c8_witness :
    (depNotifyRun true false DepM.subs (fun w d => d.addSub (w + 10))
      (⟨0, [2, 1]⟩ : DepM)).2 = notifyOrder true false [2, 1] ∧
    (1 : WId) ∈ ([2, 1] : List WId) := by
  constructor
  · exact (c8_notify_snapshot true false DepM.subs
      (fun w d => d.addSub (w + 10)) (fun _ d => d) ⟨0, [2, 1]⟩).1
  · exact (c8_notify_snapshot true false DepM.subs
      (fun w d => d.addSub (w + 10)) (fun _ d => d) ⟨0, [2, 1]⟩).2.2.1 1
      (by decide)

/-- Unfolding equation for `heapSetField` when the target object exists. -/
theorem heapSetField_eq_of_get {s : St} {a : Addr} {key : String} {f : Field}
    {o : HObject} (ho : heapGet s a = some o) :
    heapSetField s a key f = heapSet s a { o with fields := fSet o.fields key f } := by
  unfold heapSetField
  split
  · rename_i hnone
    rw [ho] at hnone
    exact absurd hnone (by simp)
  · rename_i o1 ho1
    rw [ho] at ho1
    injection ho1 with ho1
    rw [ho1]

/-- When the written value is identical to the current value (or both are
NaN), the reactive setter returns before mutating anything: the closure state
is returned unchanged and at most dependency registrations from the delegated
getter read occur. -/
theorem reactiveSetterRun_noop : ∀ (r : RProp) (fuel : Nat) (s : St)
    (newVal : JSValue),
    (jsEq newVal (rpropValue r) || (selfNeq newVal && selfNeq (rpropValue r))) = true →
    ∀ p, reactiveSetterRun fuel s r newVal = some p →
    p.1 = r ∧ DependOnly s p.2 := by
  intro r
  induction r with
  | base d v co sh =>
    intro fuel s newVal heq p h
    simp only [rpropValue] at heq
    unfold reactiveSetterRun at h
    rw [if_pos heq] at h
    injection h with h
    exact ⟨congrArg Prod.fst h.symm, (congrArg Prod.snd h.symm) ▸ dependOnly_refl⟩
  | over d inner co sh ih =>
    intro fuel s newVal heq p h
    simp only [rpropValue] at heq
    unfold reactiveSetterRun at h
    simp only [Option.bind_eq_some] at h
    obtain ⟨⟨v1, s1⟩, h1, h2⟩ := h
    obtain ⟨hv1, hdep⟩ := reactiveGetter_dependOnly _ _ _ _ _ h1
    rw [hv1] at h2
    rw [if_pos heq] at h2
    injection h2 with h2
    exact ⟨congrArg Prod.fst h2.symm, (congrArg Prod.snd h2.symm) ▸ hdep⟩

/-- C3: writing a value identical to the current value of a reactive
property, or NaN over NaN, leaves the whole state unchanged apart from
dependency registrations of the delegated read: in particular the heap (and
with it the stored value) is untouched and zero notifications fire. -/
theorem c3_noop_on_equal_write (fuel : Nat) (s : St) (a : Addr) (key : String)
    (o : HObject) (r : RProp) (newVal : JSValue) (s' : St)
    (ho : heapGet s a = some o) (hf : fGet o.fields key = some (.reactive r))
    (heq : (jsEq newVal (rpropValue r) ||
      (selfNeq newVal && selfNeq (rpropValue r))) = true)
    (hrun : reactiveSetter fuel s a key r newVal = some s') :
    DependOnly s s' := by
  unfold reactiveSetter at hrun
  simp only [Option.map_eq_some'] at hrun
  obtain ⟨⟨r2, s2⟩, h2, h3⟩ := hrun
  obtain ⟨hr2, hdep⟩ := reactiveSetterRun_noop r fuel s newVal heq _ h2
  simp only at hr2 h3 hdep
  rw [hr2] at h3
  have ho2 : heapGet s2 a = some o := by
    unfold heapGet
    rw [hdep.heapEq]
    exact ho
  have hsame : heapSetField s2 a key (.reactive r) = s2 := by
    rw [heapSetField_eq_of_get ho2]
    rw [fSet_same _ _ _ hf]
    have hlit : ({ o with fields := o.fields } : HObject) = o := rfl
    rw [hlit]
    unfold heapSet
    unfold heapGet at ho2
    rw [list_set_same _ _ _ ho2]
  rw [hsame] at h3
  exact h3 ▸ hdep

/-- Witness for C3: rewriting the current value of an observed object's
reactive property leaves the state unchanged. -/
def c3State : St :=
  { heap := [⟨.plain, [("a", .reactive (.base 1 (.prim (.num 1)) none false))],
      [], some 0, false, true⟩],
    obs := [⟨0, 0, 0⟩], deps := [⟨[]⟩, ⟨[]⟩], target := none,
    shouldObserve := true, ssr := false, dev := true, async := false,
    warnCount := 0, dependLog := [], notifyLog := [] }

theorem c3_witness :
    reactiveSetter 5 c3State 0 "a" (.base 1 (.prim (.num 1)) none false)
      (.prim (.num 1)) = some c3State ∧ DependOnly c3State c3State := by
  constructor
  · rfl
  · exact c3_noop_on_equal_write 5 c3State 0 "a"
      ⟨.plain, [("a", .reactive (.base 1 (.prim (.num 1)) none false))],
        [], some 0, false, true⟩
      (.base 1 (.prim (.num 1)) none false) (.prim (.num 1)) c3State
      rfl rfl (by decide) rfl

/-- Reachability of an address from a list of values by walking elements and
descending into nested arrays — the traversal order of `dependArray`. -/
inductive LReach (s : St) : List JSValue → Addr → Prop
  | direct {l : List JSValue} {c : Addr} : JSValue.ref c ∈ l → LReach s l c
  | nested {l : List JSValue} {b c : Addr} {o : HObject} :
      JSValue.ref b ∈ l → heapGet s b = some o → o.kind = .arr →
      LReach s o.elems c → LReach s l c

theorem lreach_heapEq {s s' : St} (hh : s'.heap = s.heap) {l : List JSValue}
    {c : Addr} (h : LReach s l c) : LReach s' l c := by
  induction h with
  | direct hm => exact .direct hm
  | nested hm hg hk hr ih =>
    refine .nested hm ?_ hk ih
    unfold heapGet
    rw [hh]
    exact hg

theorem dependOnly_mem {s s' : St} (h : DependOnly s s') {x : WId × DepId}
    (hx : x ∈ s.dependLog) : x ∈ s'.dependLog := by
  obtain ⟨δ, hδ⟩ := h.depExt
  rw [hδ]
  exact List.mem_append_left _ hx

theorem obIdAt_inv {s : St} {c : Addr} {oc : ObId} (h : obIdAt s c = some oc) :
    ∃ o, heapGet s c = some o ∧ o.obId = some oc := by
  unfold obIdAt at h
  cases hg : heapGet s c with
  | none => rw [hg] at h; simp at h
  | some o =>
    rw [hg] at h
    exact ⟨o, rfl, by simpa using h⟩

/-- Unfolding equation for `depend` under an active target. -/
theorem depend_eq_of_target {s : St} {w : WId} (h : s.target = some w)
    (d : DepId) : depend s d = { s with dependLog := s.dependLog ++ [(w, d)] } := by
  unfold depend
  split
  · rename_i w1 hw1
    rw [h] at hw1
    injection hw1 with hw1
    rw [hw1]
  · rename_i hw1
    rw [h] at hw1
    exact absurd hw1 (by simp)

/-- A successful `dependArray` traversal registers, for the active consumer,
a dependency on the observer dep of every observed container reachable from
the traversed list, including through nested arrays. -/
theorem dependArray_reach : ∀ (fuel : Nat) (items : List JSValue) (s s' : St),
    dependArray fuel s items = some s' →
    ∀ (c : Addr) (oc : ObId) (orec : ObRec) (w : WId), s.target = some w →
    LReach s items c → obIdAt s c = some oc → obsGet s oc = some orec →
    (w, orec.depId) ∈ s'.dependLog := by
  intro fuel
  induction fuel with
  | zero => intro items s s' h; simp [dependArray] at h
  | succ fuel ih =>
    intro items s s' h c oc orec w htgt hreach hoc horec
    cases items with
    | nil =>
      exfalso
      cases hreach with
      | direct hm => simp at hm
      | nested hm _ _ _ => simp at hm
    | cons e rest =>
      simp only [dependArray, Option.bind_eq_some] at h
      obtain ⟨s1, h1, s2, h2, h3⟩ := h
      have hd1 : DependOnly s s1 := by
        split at h1
        · injection h1 with h1; exact h1 ▸ dependOnly_refl
        · split at h1
          · exact absurd h1 (by simp)
          · split at h1
            · injection h1 with h1; exact h1 ▸ dependOnly_refl
            · split at h1
              · exact absurd h1 (by simp)
              · injection h1 with h1
                exact h1 ▸ depend_dependOnly s _
      have hd2 : DependOnly s1 s2 := by
        split at h2
        · injection h2 with h2; exact h2 ▸ dependOnly_refl
        · split at h2
          · exact absurd h2 (by simp)
          · split at h2
            · exact dependArray_dependOnly _ _ _ _ h2
            · injection h2 with h2; exact h2 ▸ dependOnly_refl
      have hd3 : DependOnly s2 s' := dependArray_dependOnly _ _ _ _ h3
      cases hreach with
      | direct hm =>
        rcases List.mem_cons.mp hm with he | hrest
        · obtain ⟨o, hgo, hobo⟩ := obIdAt_inv hoc
          subst he
          simp only [hgo, hobo, horec] at h1
          injection h1 with h1
          have hmem : (w, orec.depId) ∈ s1.dependLog := by
            rw [← h1, depend_eq_of_target htgt]
            simp
          exact dependOnly_mem hd3 (dependOnly_mem hd2 hmem)
        · have hd12 := dependOnly_trans hd1 hd2
          refine ih rest s2 s' h3 c oc orec w ?_ ?_ ?_ ?_
          · rw [hd12.targetEq]; exact htgt
          · exact lreach_heapEq hd12.heapEq (.direct hrest)
          · unfold obIdAt heapGet
            rw [hd12.heapEq]
            exact hoc
          · unfold obsGet
            rw [hd12.obsEq]
            exact horec
      | nested hm hgb hkb hr =>
        rename_i b o
        rcases List.mem_cons.mp hm with he | hrest
        · subst he
          have hgb1 : heapGet s1 b = some o := by
            unfold heapGet
            rw [hd1.heapEq]
            exact hgb
          simp only [hgb1] at h2
          rw [if_pos hkb] at h2
          refine dependOnly_mem hd3 (ih o.elems s1 s2 h2 c oc orec w ?_ ?_ ?_ ?_)
          · rw [hd1.targetEq]; exact htgt
          · exact lreach_heapEq hd1.heapEq hr
          · unfold obIdAt heapGet
            rw [hd1.heapEq]
            exact hoc
          · unfold obsGet
            rw [hd1.obsEq]
            exact horec
        · have hd12 := dependOnly_trans hd1 hd2
          refine ih rest s2 s' h3 c oc orec w ?_ ?_ ?_ ?_
          · rw [hd12.targetEq]; exact htgt
          · exact lreach_heapEq hd12.heapEq (.nested hrest hgb hkb hr)
          · unfold obIdAt heapGet
            rw [hd12.heapEq]
            exact hoc
          · unfold obsGet
            rw [hd12.obsEq]
            exact horec

/-- C9: reading a reactive property whose value is an observed array, while a
consumer is active, registers a dependency (an `addDep` call on the active
consumer) for the observer dep of every observed container reachable from
the array's elements — recursing through nested arrays down to the innermost
observed container. -/
theorem c9_recursive_element_dependency (fuel : Nat) (s : St) (d : DepId)
    (co : ObId) (corec : ObRec) (a : Addr) (oarr : HObject) (sh : Bool)
    (w : WId) (c : Addr) (oc : ObId) (ocrec : ObRec) (v : JSValue) (s' : St)
    (htgt : s.target = some w)
    (hco : obsGet s co = some corec)
    (ha : heapGet s a = some oarr) (hk : oarr.kind = .arr)
    (hreach : LReach s oarr.elems c)
    (hoc : obIdAt s c = some oc) (hrec : obsGet s oc = some ocrec)
    (hrun : reactiveGetter fuel s (.base d (.ref a) (some co) sh) = some (v, s')) :
    (w, ocrec.depId) ∈ s'.dependLog := by
  simp only [reactiveGetter, getterTail] at hrun
  split at hrun
  · rename_i hnone
    rw [htgt] at hnone
    exact absurd hnone (by simp)
  · rw [depend_eq_of_target htgt d] at hrun
    have hco1 : obsGet { s with dependLog := s.dependLog ++ [(w, d)] } co =
        some corec := hco
    simp only [hco1] at hrun
    rw [depend_eq_of_target (show ({ s with dependLog := s.dependLog ++ [(w, d)] } : St).target = some w from htgt) corec.depId] at hrun
    simp only at hrun
    have ha2 : heapGet { s with dependLog :=
        (s.dependLog ++ [(w, d)]) ++ [(w, corec.depId)] } a = some oarr := ha
    simp only [ha2] at hrun
    rw [if_pos hk] at hrun
    simp only [Option.map_eq_some'] at hrun
    obtain ⟨s3, h3, h4⟩ := hrun
    injection h4 with h4a h4b
    have hre : ({ s with dependLog :=
        (s.dependLog ++ [(w, d)]) ++ [(w, corec.depId)] } : St).heap = s.heap := rfl
    refine h4b ▸ dependArray_reach fuel oarr.elems _ s3 h3 c oc ocrec w htgt
      (lreach_heapEq hre hreach) hoc hrec

/-- Concrete state for the C9 witness: a fully observed object whose
property `p` holds an array (address 1) containing an array (address 2)
containing an observed object (address 3), with watcher 7 active. -/
def c9State : St :=
  { heap :=
      [⟨.plain, [("p", .reactive (.base 1 (.ref 1) (some 1) false))], [],
        some 0, false, true⟩,
       ⟨.arr, [], [.ref 2], some 1, false, true⟩,
       ⟨.arr, [], [.ref 3], some 2, false, true⟩,
       ⟨.plain, [("x", .reactive (.base 5 (.prim (.num 5)) none false))], [],
        some 3, false, true⟩],
    obs := [⟨0, 0, 0⟩, ⟨2, 0, 1⟩, ⟨3, 0, 2⟩, ⟨4, 0, 3⟩],
    deps := [⟨[]⟩, ⟨[]⟩, ⟨[]⟩, ⟨[]⟩, ⟨[]⟩, ⟨[]⟩],
    target := some 7, shouldObserve := true, ssr := false, dev := true,
    async := false, warnCount := 0, dependLog := [], notifyLog := [] }

theorem c9_witness : ∃ p : JSValue × St,
    reactiveGetter 40 c9State (.base 1 (.ref 1) (some 1) false) = some p ∧
    ((7 : WId), (4 : DepId)) ∈ p.2.dependLog := by
  refine ⟨_, rfl, ?_⟩
  exact c9_recursive_element_dependency 40 c9State 1 1 ⟨2, 0, 1⟩ 1
    ⟨.arr, [], [.ref 2], some 1, false, true⟩ false 7 3 3 ⟨4, 0, 3⟩ _ _
    rfl rfl rfl rfl
    (.nested (List.mem_singleton.mpr rfl) rfl rfl
      (.direct (List.mem_singleton.mpr rfl)))
    rfl rfl rfl

/-- C1 (amended): `set` on a root-tracked target (`_isVue` set, or observer
`vmCount` nonzero) with a key not present on the target — and not the
list-with-valid-index case, which short-circuits earlier — emits exactly one
developer warning in a development build, returns the value, and performs no
assignment at all: the resulting state is exactly the input state with the
warning counter bumped, so the key does not come to exist on the target. -/
theorem c1_root_set_warns_no_assign (fuel : Nat) (s : St) (a : Addr)
    (o : HObject) (k : PropKey) (val : JSValue)
    (ho : heapGet s a = some o)
    (hdev : s.dev = true)
    (hnotidx : ¬(o.kind = .arr ∧ isValidArrayIndex k = true))
    (hnotin : keyIn o k = false)
    (hroot : o.isVue = true ∨
      ∃ ob orec, o.obId = some ob ∧ obsGet s ob = some orec ∧ orec.vmCount > 0) :
    set fuel s (.ref a) k val = some (val, warn s) := by
  unfold set
  simp only [isUndef, isPrimitive, Bool.or_false, Bool.and_false,
    Bool.false_eq_true, if_false, ho]
  rw [if_neg hnotidx]
  rw [hnotin]
  simp only [Bool.false_and, Bool.false_eq_true, if_false]
  by_cases hvue : o.isVue = true
  · rw [if_pos hvue, hdev]
    simp
  · rw [if_neg hvue]
    rcases hroot with h | ⟨ob, orec, hob, horec, hvm⟩
    · exact absurd h hvue
    · rw [hob]
      simp only [horec]
      rw [if_pos hvm, hdev]
      simp

/-- Concrete root-tracked state for C1: a plain object observed as root data
(`vmCount = 1`) in a development build. -/
def c1State : St :=
  { heap := [⟨.plain, [("a", .reactive (.base 1 (.prim (.num 1)) none false))],
      [], some 0, false, true⟩],
    obs := [⟨0, 1, 0⟩], deps := [⟨[]⟩, ⟨[]⟩], target := none,
    shouldObserve := true, ssr := false, dev := true, async := false,
    warnCount := 0, dependLog := [], notifyLog := [] }

/-- C1 counterexample: on a root-tracked object, `set` with a new key returns
the value and warns once, but the key does **not** exist on the target
afterwards — the code returns before performing the assignment, contrary to
the claim that the assignment still happens. -/
theorem c1_counterexample :
    (set 10 c1State (.ref 0) (.s "b") (.prim (.num 7))).map
        (fun p => (p.1, p.2.warnCount,
          (heapGet p.2 0).map (fun o => (fGet o.fields "b").isSome))) =
      some (.prim (.num 7), 1, some false) := by
  decide

theorem c1_witness :
    set 10 c1State (.ref 0) (.s "b") (.prim (.num 7)) =
      some (.prim (.num 7), warn c1State) :=
  c1_root_set_warns_no_assign 10 c1State 0
    ⟨.plain, [("a", .reactive (.base 1 (.prim (.num 1)) none false))],
      [], some 0, false, true⟩
    (.s "b") (.prim (.num 7)) rfl rfl (by decide) (by decide)
    (Or.inr ⟨0, ⟨0, 1, 0⟩, rfl, rfl, by decide⟩)

/-- All dep ids owned by an accessor chain (the per-property deps). -/
def rpropDeps : RProp → List DepId
  | .base d _ _ _ => [d]
  | .over d inner _ _ => d :: rpropDeps inner

/-- Dep ids owned by a property slot. -/
def fieldDeps : Field → List DepId
  | .data _ _ _ => []
  | .reactive r => rpropDeps r

/-- Number of notifications fired on a dep so far. -/
def notifyCount (s : St) (d : DepId) : Nat :=
  (s.notifyLog.filter (fun e => e.1 == d)).length

theorem fGet_fSet_self : ∀ (l : List (String × Field)) (k : String) (f : Field),
    fGet (fSet l k f) k = some f := by
  intro l
  induction l with
  | nil => intro k f; simp [fSet, fGet]
  | cons p rest ih =>
    intro k f
    obtain ⟨k0, f0⟩ := p
    by_cases hk : k0 = k
    · subst hk
      simp [fSet, fGet]
    · simp [fSet, fGet, hk]
      exact ih k f

theorem heapSetField_notifyLog (s : St) (a : Addr) (key : String) (f : Field) :
    (heapSetField s a key f).notifyLog = s.notifyLog := by
  unfold heapSetField
  split
  · rfl
  · rfl

theorem filter_length_append_none {α : Type} (q : α → Bool) (l1 δ : List α)
    (h : ∀ e ∈ δ, q e = false) :
    ((l1 ++ δ).filter q).length = (l1.filter q).length := by
  rw [List.filter_append]
  have hnil : δ.filter q = [] :=
    List.filter_eq_nil_iff.mpr (fun a ha => by simp [h a ha])
  rw [hnil]
  simp

/-- Every notification fired by the reactive setter goes to a dep owned by
the accessor chain itself (its own dep or a delegated accessor's dep) —
never to any other dep. -/
theorem reactiveSetterRun_notify : ∀ (r : RProp) (fuel : Nat) (s : St)
    (newVal : JSValue) (p : RProp × St),
    reactiveSetterRun fuel s r newVal = some p →
    ∃ δ, p.2.notifyLog = s.notifyLog ++ δ ∧ ∀ e ∈ δ, e.1 ∈ rpropDeps r := by
  intro r
  induction r with
  | base d v co sh =>
    intro fuel s newVal p h
    unfold reactiveSetterRun at h
    split at h
    · injection h with h
      refine ⟨[], ?_, by simp⟩
      rw [← h]
      simp
    · simp only [Option.bind_eq_some] at h
      obtain ⟨⟨co2, s2⟩, h2, h3⟩ := h
      injection h3 with h3
      have hn2 : s2.notifyLog = s.notifyLog := by
        split at h2
        · injection h2 with h2
          injection h2 with h2a h2b
          rw [← h2b]
        · exact (exec_evol _ _ _ _ _ h2).notifyEq
      refine ⟨[(d, notifyOrder s2.dev s2.async
        (match depsGet s2 d with | some r => r.subs | none => []))], ?_, ?_⟩
      · rw [← h3]
        simp only [depNotify]
        rw [hn2]
      · intro e he
        simp only [List.mem_singleton] at he
        rw [he]
        simp [rpropDeps]
  | over d inner co sh ih =>
    intro fuel s newVal p h
    unfold reactiveSetterRun at h
    simp only [Option.bind_eq_some] at h
    obtain ⟨⟨v1, s1⟩, h1, h⟩ := h
    have hn1 : s1.notifyLog = s.notifyLog :=
      (reactiveGetter_dependOnly _ _ _ _ _ h1).2.notifyEq
    split at h
    · injection h with h
      refine ⟨[], ?_, by simp⟩
      rw [← h]
      simpa using hn1
    · simp only [Option.bind_eq_some] at h
      obtain ⟨⟨r2, s2⟩, h2, ⟨co3, s3⟩, h3, h4⟩ := h
      injection h4 with h4
      obtain ⟨δ1, hδ1, hδ1m⟩ := ih fuel s1 newVal _ h2
      have hn3 : s3.notifyLog = s2.notifyLog := by
        split at h3
        · injection h3 with h3
          injection h3 with h3a h3b
          rw [← h3b]
        · exact (exec_evol _ _ _ _ _ h3).notifyEq
      refine ⟨δ1 ++ [(d, notifyOrder s3.dev s3.async
        (match depsGet s3 d with | some r => r.subs | none => []))], ?_, ?_⟩
      · rw [← h4]
        simp only [depNotify]
        rw [hn3]
        simp only at hδ1
        rw [hδ1, hn1, List.append_assoc]
      · intro e he
        rcases List.mem_append.mp he with he1 | he2
        · simp [rpropDeps]
          right
          exact hδ1m e he1
        · simp only [List.mem_singleton] at he2
          rw [he2]
          simp [rpropDeps]

/-- C7 (amended): `set` on a non-list target whose key already exists as an
own property — provided the key does not also live on `Object.prototype` —
performs a plain assignment: it returns the value, fires no notification on
the container observer's dep (the only notifications possible are those of
the property's own accessor), and installs no new accessor (a data property
stays a data property, now holding the value). -/
theorem c7_set_existing_own_key (fuel : Nat) (s : St) (a : Addr) (o : HObject)
    (k : PropKey) (val : JSValue) (f : Field) (ob : ObId) (orec : ObRec)
    (p : JSValue × St)
    (ho : heapGet s a = some o)
    (hknd : o.kind ≠ .arr)
    (hf : fGet o.fields (keyStr k) = some f)
    (hproto : objectProtoKeys.contains (keyStr k) = false)
    (hob : o.obId = some ob) (horec : obsGet s ob = some orec)
    (hdeps : orec.depId ∉ fieldDeps f)
    (hrun : set fuel s (.ref a) k val = some p) :
    p.1 = val ∧ notifyCount p.2 orec.depId = notifyCount s orec.depId ∧
    (∀ v0 e c, f = .data v0 e c → ∃ o2, heapGet p.2 a = some o2 ∧
      fGet o2.fields (keyStr k) = some (.data val e c)) := by
  unfold set at hrun
  simp only [isUndef, isPrimitive, Bool.or_false, Bool.and_false,
    Bool.false_eq_true, if_false, ho] at hrun
  rw [if_neg (fun hc => hknd hc.1)] at hrun
  have hkeyin : keyIn o k = true := by
    unfold keyIn
    rw [hf]
    simp
  rw [hkeyin, hproto] at hrun
  simp only [Bool.true_and, Bool.not_false, if_true] at hrun
  simp only [Option.map_eq_some'] at hrun
  obtain ⟨s1, hassign, hp⟩ := hrun
  rw [← hp]
  refine ⟨rfl, ?_, ?_⟩
  · unfold jsAssign at hassign
    rw [ho] at hassign
    simp only at hassign
    rw [if_neg (fun hc => hknd hc.1)] at hassign
    rw [hf] at hassign
    cases f with
    | data v0 e c =>
      injection hassign with hassign
      rw [← hassign]
      unfold notifyCount
      rw [heapSetField_notifyLog]
    | reactive r =>
      unfold reactiveSetter at hassign
      simp only [Option.map_eq_some'] at hassign
      obtain ⟨⟨r2, s2⟩, h2, h3⟩ := hassign
      obtain ⟨δ, hδ, hδm⟩ := reactiveSetterRun_notify r fuel s val _ h2
      unfold notifyCount
      rw [← h3, heapSetField_notifyLog]
      simp only at hδ
      rw [hδ]
      refine filter_length_append_none _ _ _ ?_
      intro e he
      have := hδm e he
      simp only [fieldDeps] at hdeps
      by_cases hhit : e.1 = orec.depId
      · exact absurd (hhit ▸ this) hdeps
      · simp [hhit]
  · intro v0 e c hfdata
    subst hfdata
    unfold jsAssign at hassign
    rw [ho] at hassign
    simp only at hassign
    rw [if_neg (fun hc => hknd hc.1)] at hassign
    rw [hf] at hassign
    injection hassign with hassign
    rw [← hassign]
    rw [heapSetField_eq_of_get ho]
    refine ⟨{ o with fields := fSet o.fields (keyStr k) (.data val e c) }, ?_, ?_⟩
    · unfold heapGet heapSet
      exact list_get_set_self _ _ _ (list_get_lt ho)
    · exact fGet_fSet_self _ _ _

/-- Observed object carrying a non-enumerable own data property `toString`
(skipped by `walk`, hence still a plain data slot) next to a reactive one. -/
def c7State : St :=
  { heap := [⟨.plain,
      [("a", .reactive (.base 1 (.prim (.num 1)) none false)),
       ("toString", .data (.prim (.num 1)) false true)], [], some 0, false, true⟩],
    obs := [⟨0, 0, 0⟩], deps := [⟨[]⟩, ⟨[]⟩], target := none,
    shouldObserve := true, ssr := false, dev := true, async := false,
    warnCount := 0, dependLog := [], notifyLog := [] }

/-- C7 counterexample: `toString` exists as an own property of the observed
target, yet `set` does not take the plain-assignment path — because
`'toString' in Object.prototype` holds, the guard fails and the observer path
runs `defineReactive` (installing a new accessor) and notifies the container
observer's dep once, contrary to the claim. -/
theorem c7_counterexample :
    (set 20 c7State (.ref 0) (.s "toString") (.prim (.num 2))).map
        (fun p => (p.1, notifyCount p.2 0,
          (heapGet p.2 0).map (fun o => (fGet o.fields "toString").map
            (fun f => match f with
              | .reactive _ => true
              | .data _ _ _ => false)))) =
      some (.prim (.num 2), 1, some (some true)) := by
  decide

/-- Observed object with an ordinary own data property for the C7 witness. -/
def c7State2 : St :=
  { heap := [⟨.plain, [("x", .data (.prim (.num 1)) true true)], [],
      some 0, false, true⟩],
    obs := [⟨0, 0, 0⟩], deps := [⟨[]⟩], target := none,
    shouldObserve := true, ssr := false, dev := true, async := false,
    warnCount := 0, dependLog := [], notifyLog := [] }

theorem c7_witness : ∃ p : JSValue × St,
    set 20 c7State2 (.ref 0) (.s "x") (.prim (.num 5)) = some p ∧
    p.1 = .prim (.num 5) ∧ notifyCount p.2 0 = notifyCount c7State2 0 := by
  refine ⟨_, rfl, ?_⟩
  have h := c7_set_existing_own_key 20 c7State2 0
    ⟨.plain, [("x", .data (.prim (.num 1)) true true)], [], some 0, false, true⟩
    (.s "x") (.prim (.num 5)) (.data (.prim (.num 1)) true true) 0 ⟨0, 0, 0⟩ _
    rfl (by decide) rfl (by decide) rfl rfl (by decide) rfl
  exact ⟨h.1, h.2.1⟩

/-- State relation for the raw array operations: at most fresh (unmarked)
objects are appended to the heap (the array `splice` returns); everything
else — observers, deps, flags, logs — is untouched. -/
def HeapExtOnly (s s0 : St) : Prop :=
  (∃ ext, s0.heap = s.heap ++ ext ∧ ∀ e ∈ ext, e.obId = none) ∧
  s0.obs = s.obs ∧ s0.deps = s.deps ∧ s0.target = s.target ∧
  s0.shouldObserve = s.shouldObserve ∧ s0.ssr = s.ssr ∧ s0.dev = s.dev ∧
  s0.async = s.async ∧ s0.warnCount = s.warnCount ∧
  s0.dependLog = s.dependLog ∧ s0.notifyLog = s.notifyLog

theorem heapExtOnly_refl {s : St} : HeapExtOnly s s :=
  ⟨⟨[], by simp, by simp⟩, rfl, rfl, rfl, rfl, rfl, rfl, rfl, rfl, rfl, rfl⟩

theorem rawApply_heapExt : ∀ (fuel : Nat) (s : St) (a : Addr) (m : AMethod)
    (args : List JSValue) (res : JSValue) (es : List JSValue) (s0 : St),
    rawApply fuel s a m args = some (res, es, s0) → HeapExtOnly s s0 := by
  intro fuel s a m args res es s0 h
  unfold rawApply at h
  split at h
  · simp at h
  · split at h
    · injection h with h
      injection h with h1 h2
      injection h2 with h2a h2b
      subst h2b
      exact heapExtOnly_refl
    · dsimp only at h
      split at h <;>
      · injection h with h
        injection h with h1 h2
        injection h2 with h2a h2b
        subst h2b
        exact heapExtOnly_refl
    · dsimp only at h
      split at h <;>
      · injection h with h
        injection h with h1 h2
        injection h2 with h2a h2b
        subst h2b
        exact heapExtOnly_refl
    · injection h with h
      injection h with h1 h2
      injection h2 with h2a h2b
      subst h2b
      exact heapExtOnly_refl
    · injection h with h
      injection h with h1 h2
      injection h2 with h2a h2b
      subst h2b
      refine ⟨⟨[_], rfl, ?_⟩, rfl, rfl, rfl, rfl, rfl, rfl, rfl, rfl, rfl, rfl⟩
      intro e he
      simp only [List.mem_singleton] at he
      rw [he]
    · simp only [Option.map_eq_some'] at h
      obtain ⟨keys, hkeys, h2⟩ := h
      injection h2 with h1 h2
      injection h2 with h2a h2b
      subst h2b
      exact heapExtOnly_refl
    · injection h with h
      injection h with h1 h2
      injection h2 with h2a h2b
      subst h2b
      exact heapExtOnly_refl

theorem list_get_append_right {α : Type} : ∀ (l1 l2 : List α) (n : Nat),
    l1.length ≤ n → (l1 ++ l2).get? n = l2.get? (n - l1.length) := by
  intro l1
  induction l1 with
  | nil => intro l2 n h; simp
  | cons a rest ih =>
    intro l2 n h
    cases n with
    | zero => simp at h
    | succ n =>
      rw [show ((a :: rest) ++ l2).get? (n + 1) = (rest ++ l2).get? n from rfl,
        ih l2 n (by simpa using h)]
      congr 1
      simp only [List.length_cons]
      omega

theorem heapGet_depNotify (s : St) (d : DepId) (x : Addr) :
    heapGet (depNotify s d) x = heapGet s x := rfl

/-- Core correctness of the patched array `mutator`: the original operation's
result is returned unchanged and its element update is applied; exactly one
notification fires, on the array's own observer dep, dispatching to the
dep's current subscriber snapshot; when the method inserts no elements no
marker anywhere changes, and when it does insert, every inserted reference
to an already-observed or observation-eligible object carries a marker
afterwards. -/
theorem mutator_spec (fuel : Nat) (s : St) (a : Addr) (o : HObject)
    (m : AMethod) (args : List JSValue) (ob : ObId) (orec : ObRec)
    (dr : DepRec) (res0 : JSValue) (es0 : List JSValue) (s0 : St)
    (p : JSValue × St)
    (ho : heapGet s a = some o) (hob : o.obId = some ob)
    (horec : obsGet s ob = some orec) (hdr : depsGet s orec.depId = some dr)
    (hraw : rawApply fuel s a m args = some (res0, es0, s0))
    (hrun : mutator fuel s a m args = some p) :
    p.1 = res0 ∧
    (∃ o2, heapGet p.2 a = some o2 ∧ o2.elems = es0 ∧ o2.obId = some ob) ∧
    p.2.notifyLog = s.notifyLog ++
      [(orec.depId, notifyOrder s.dev s.async dr.subs)] ∧
    (insertedOf m args = none → ∀ x, obIdAt p.2 x = obIdAt s x) ∧
    (∀ ins, insertedOf m args = some ins →
      ∀ b ob2, (JSValue.ref b) ∈ ins → b ≠ a → heapGet s b = some ob2 →
      (ob2.obId.isSome = true ∨ (s.shouldObserve = true ∧ s.ssr = false ∧
        (ob2.kind = .arr ∨ ob2.kind = .plain) ∧ ob2.extensible = true ∧
        ob2.isVue = false)) →
      (obIdAt p.2 b).isSome = true) := by
  obtain ⟨⟨ext, hext, hextnone⟩, hobs0, hdeps0, htgt0, hso0, hssr0, hdev0,
    hasync0, hwarn0, hdl0, hnl0⟩ := rawApply_heapExt _ _ _ _ _ _ _ _ hraw
  have hlt : a < s.heap.length := list_get_lt ho
  have hlt0 : a < s0.heap.length := by
    rw [hext, List.length_append]
    exact Nat.lt_of_lt_of_le hlt (Nat.le_add_right _ _)
  have ho0 : heapGet s0 a = some o := by
    unfold heapGet
    rw [hext, list_get_append_left _ _ _ hlt]
    exact ho
  unfold mutator at hrun
  rw [hraw] at hrun
  simp only [Option.some_bind, ho0] at hrun
  simp only [hob] at hrun
  have hobs2 : obsGet (heapSet s0 a { o with elems := es0, obId := some ob }) ob = some orec := by
    unfold obsGet heapSet
    simp only
    rw [hobs0]
    exact horec
  simp only [hobs2] at hrun
  have hga2 : heapGet (heapSet s0 a { o with elems := es0, obId := some ob }) a =
      some { o with elems := es0, obId := some ob } := by
    unfold heapGet heapSet
    simp only
    exact list_get_set_self _ _ _ hlt0
  have hdg2 : depsGet (heapSet s0 a { o with elems := es0, obId := some ob }) orec.depId =
      some dr := by
    unfold depsGet heapSet
    simp only
    rw [hdeps0]
    exact hdr
  have hmark2 : obIdAt (heapSet s0 a { o with elems := es0, obId := some ob }) a = some ob := by
    unfold obIdAt
    rw [hga2]
    rfl
  have hobIdAt2 : ∀ x, obIdAt (heapSet s0 a { o with elems := es0, obId := some ob }) x =
      obIdAt s x := by
    intro x
    by_cases hxa : x = a
    · subst hxa
      rw [hmark2]
      unfold obIdAt
      rw [ho]
      simp [hob]
    · unfold obIdAt heapGet heapSet
      simp only
      rw [list_get_set_other _ _ _ _ hxa, hext]
      by_cases hx : x < s.heap.length
      · rw [list_get_append_left _ _ _ hx]
      · rw [list_get_append_right _ _ _ (Nat.le_of_not_lt hx)]
        rw [List.get?_eq_none.mpr (Nat.le_of_not_lt hx)]
        cases hgx : ext.get? (x - s.heap.length) with
        | none => rfl
        | some e =>
          simp only [Option.some_bind]
          rw [hextnone e (List.get?_mem hgx)]
          rfl
  have hgb2 : ∀ b, b ≠ a → ∀ ob2, heapGet s b = some ob2 →
      heapGet (heapSet s0 a { o with elems := es0, obId := some ob }) b = some ob2 := by
    intro b hne ob2 hgb
    unfold heapGet heapSet
    simp only
    rw [list_get_set_other _ _ _ _ hne, hext,
      list_get_append_left _ _ _ (list_get_lt hgb)]
    exact hgb
  cases hins : insertedOf m args with
  | none =>
    simp only [hins, Option.map_eq_some'] at hrun
    obtain ⟨s3, hs3, hp⟩ := hrun
    injection hs3 with hs3
    subst hs3
    rw [← hp]
    refine ⟨rfl, ⟨{ o with elems := es0, obId := some ob }, ?_, rfl, rfl⟩, ?_, ?_, ?_⟩
    · exact hga2
    · have hnl2 : (heapSet s0 a { o with elems := es0, obId := some ob }).notifyLog =
          s.notifyLog := by
        simp only [heapSet]
        exact hnl0
      have hdev2 : (heapSet s0 a { o with elems := es0, obId := some ob }).dev =
          s.dev := by
        simp only [heapSet]
        exact hdev0
      have hasync2 : (heapSet s0 a { o with elems := es0, obId := some ob }).async =
          s.async := by
        simp only [heapSet]
        exact hasync0
      simp only [depNotify, hdg2, hnl2, hdev2, hasync2]
    · intro _ x
      exact hobIdAt2 x
    · intro ins hcontra
      simp at hcontra
  | some ins =>
    simp only [hins, Option.map_eq_some'] at hrun
    obtain ⟨s3, hs3, hp⟩ := hrun
    simp only [observeArray, Option.map_eq_some'] at hs3
    obtain ⟨⟨r4, s4⟩, hexec, hs4⟩ := hs3
    simp only at hs4
    subst hs4
    rw [← hp]
    have hevol := exec_evol _ _ _ _ _ hexec
    have hmark3 : obIdAt s4 a = some ob := by
      rcases exec_obPres _ _ _ _ _ hexec a ob hmark2 with hpres | ⟨a1, ha1, _⟩
      · exact hpres
      · exact absurd ha1 (by simp)
    obtain ⟨o2, ho2, hk2, he2, hv2, hx2⟩ := hevol.objs a _ hga2
    have hob2 : o2.obId = some ob := by
      unfold obIdAt at hmark3
      rw [ho2] at hmark3
      simpa using hmark3
    refine ⟨rfl, ⟨o2, ?_, he2, hob2⟩, ?_, ?_, ?_⟩
    · exact ho2
    · have hdg3 : depsGet s4 orec.depId = some dr := hevol.depsPres _ _ hdg2
      have hnl3 : s4.notifyLog = s.notifyLog := by
        rw [hevol.notifyEq]
        simp only [heapSet]
        exact hnl0
      have hdev3 : s4.dev = s.dev := by
        rw [hevol.devEq]
        simp only [heapSet]
        exact hdev0
      have hasync3 : s4.async = s.async := by
        rw [hevol.asyncEq]
        simp only [heapSet]
        exact hasync0
      simp only [depNotify, hdg3, hnl3, hdev3, hasync3]
    · intro hcontra
      simp at hcontra
    · intro ins2 hins2 b ob2 hmem hne hgb helig
      injection hins2 with hins2
      subst hins2
      refine exec_observeArray_marks _ _ _ _ _ hexec b ob2 hmem
        (hgb2 b hne ob2 hgb) ?_
      rcases helig with hsome | ⟨hsoe, hssre, hknd, hexte, hvuee⟩
      · exact Or.inl hsome
      · refine Or.inr ⟨?_, ?_, hknd, hexte, hvuee⟩
        · show (heapSet s0 a { o with elems := es0, obId := some ob }).shouldObserve = true
          simp only [heapSet]
          rw [hso0]
          exact hsoe
        · show (heapSet s0 a { o with elems := es0, obId := some ob }).ssr = false
          simp only [heapSet]
          rw [hssr0]
          exact hssre

/-- C6: on an observed list, each intercepted in-place mutating operation
(push, pop, shift, unshift, splice, sort, reverse) first performs the
original operation — the returned value is the original operation's result
unchanged and the final element list is the original operation's — observes
exactly the newly inserted arguments (push/unshift: all arguments; splice:
the arguments after the first two, under which every inserted reference to
an already-observed or observation-eligible object carries a marker
afterwards; others: none, under which no marker anywhere changes), and fires
exactly one notify on the list's own dependency node per call. -/
theorem c6_intercepted_mutation_once (fuel : Nat) (s : St) (a : Addr)
    (o : HObject) (m : AMethod) (args : List JSValue) (ob : ObId)
    (orec : ObRec) (dr : DepRec) (res0 : JSValue) (es0 : List JSValue)
    (s0 : St) (p : JSValue × St)
    (ho : heapGet s a = some o) (hob : o.obId = some ob)
    (horec : obsGet s ob = some orec) (hdr : depsGet s orec.depId = some dr)
    (hraw : rawApply fuel s a m args = some (res0, es0, s0))
    (hrun : callArrayMethod fuel s a m args = some p) :
    p.1 = res0 ∧
    (∃ o2, heapGet p.2 a = some o2 ∧ o2.elems = es0 ∧ o2.obId = some ob) ∧
    p.2.notifyLog = s.notifyLog ++
      [(orec.depId, notifyOrder s.dev s.async dr.subs)] ∧
    ((m = .push ∨ m = .unshift) → insertedOf m args = some args) ∧
    (m = .splice → insertedOf m args = some (args.drop 2)) ∧
    (insertedOf m args = none → ∀ x, obIdAt p.2 x = obIdAt s x) ∧
    (∀ ins, insertedOf m args = some ins →
      ∀ b ob2, (JSValue.ref b) ∈ ins → b ≠ a → heapGet s b = some ob2 →
      (ob2.obId.isSome = true ∨ (s.shouldObserve = true ∧ s.ssr = false ∧
        (ob2.kind = .arr ∨ ob2.kind = .plain) ∧ ob2.extensible = true ∧
        ob2.isVue = false)) →
      (obIdAt p.2 b).isSome = true) := by
  have hmark : obIdAt s a = some ob := by
    simp only [obIdAt, ho, Option.some_bind, hob]
  simp only [callArrayMethod, hmark] at hrun
  obtain ⟨h1, h2, h3, h4, h5⟩ :=
    mutator_spec fuel s a o m args ob orec dr res0 es0 s0 p
      ho hob horec hdr hraw hrun
  refine ⟨h1, h2, h3, ?_, ?_, h4, h5⟩
  · rintro (rfl | rfl) <;> rfl
  · rintro rfl
    rfl

/-- An observed one-element array (addr 0, subscriber 7 on its dep) and an
unobserved but observation-eligible plain object (addr 1), for the C6
witness. -/
def c6State : St :=
  { heap := [⟨.arr, [], [.prim (.num 1)], some 0, false, true⟩,
             ⟨.plain, [], [], none, false, true⟩],
    obs := [⟨0, 0, 0⟩], deps := [⟨[7]⟩], target := none,
    shouldObserve := true, ssr := false, dev := true, async := false,
    warnCount := 0, dependLog := [], notifyLog := [] }

theorem c6_witness : ∃ p : JSValue × St,
    callArrayMethod 20 c6State 0 .push [.ref 1] = some p ∧
    p.1 = .prim (.num 2) ∧
    (∃ o2, heapGet p.2 0 = some o2 ∧ o2.elems = [.prim (.num 1), .ref 1]) ∧
    p.2.notifyLog = [(0, notifyOrder true false [7])] ∧
    (obIdAt p.2 1).isSome = true := by
  refine ⟨_, rfl, ?_⟩
  have h := c6_intercepted_mutation_once 20 c6State 0
    ⟨.arr, [], [.prim (.num 1)], some 0, false, true⟩ .push [.ref 1] 0
    ⟨0, 0, 0⟩ ⟨[7]⟩ (.prim (.num 2)) [.prim (.num 1), .ref 1] c6State _
    rfl rfl rfl rfl rfl rfl
  obtain ⟨h1, ⟨o2, ho2, he2, _⟩, h3, _, _, _, h7⟩ := h
  refine ⟨h1, ⟨o2, ho2, he2⟩, h3, ?_⟩
  exact h7 [.ref 1] rfl 1 ⟨.plain, [], [], none, false, true⟩
    (by simp) (by decide) rfl (Or.inr (by simp [c6State]))

/-- The raw `splice(len, 1, val)` on an array whose element list has length
`len` appends `val`: the deleted range is empty, the returned fresh array of
removed elements is empty, and the element list becomes `elems ++ [val]`. -/
theorem rawApply_splice_extend (fuel : Nat) (s : St) (a : Addr) (o : HObject)
    (n : Nat) (val : JSValue)
    (ho : heapGet s a = some o) (hlen : o.elems.length = n) :
    rawApply fuel s a .splice [.prim (.num n), .prim (.num 1), val] =
      some (.ref s.heap.length, o.elems ++ [val],
        { s with heap := s.heap ++ [⟨.arr, [], [], none, false, true⟩] }) := by
  subst hlen
  unfold rawApply
  rw [ho]
  dsimp only
  have hstart : spliceStart
      (jsToInt (([JSValue.prim (.num o.elems.length), .prim (.num 1),
        val]).headD (.prim .undef))) o.elems.length = o.elems.length := by
    simp [spliceStart, jsToInt]
  have hdc : spliceCount [JSValue.prim (.num o.elems.length), .prim (.num 1),
      val] o.elems.length o.elems.length = 0 := by
    simp [spliceCount, jsToInt]
  rw [hstart, hdc]
  simp

/-- C5: on an observed list, `set` with a valid index key at or beyond the
current length stretches the list and routes through the splice interceptor:
afterwards the list's length is `key + 1` with the value at index `key`,
exactly one notification fires on the list's own dependency node, the value
— when it is a reference to an already-observed or observation-eligible
object — carries an observation marker afterwards, and the call returns the
value. -/
theorem c5_out_of_range_set_extends (fuel : Nat) (s : St) (a : Addr)
    (o : HObject) (n : Nat) (val : JSValue) (ob : ObId) (orec : ObRec)
    (dr : DepRec) (p : JSValue × St)
    (ho : heapGet s a = some o) (hkind : o.kind = .arr)
    (hob : o.obId = some ob) (horec : obsGet s ob = some orec)
    (hdr : depsGet s orec.depId = some dr) (hge : o.elems.length ≤ n)
    (hrun : set fuel s (.ref a) (.idx n) val = some p) :
    p.1 = val ∧
    (∃ o2, heapGet p.2 a = some o2 ∧ o2.elems.length = n + 1 ∧
      o2.elems.get? n = some val ∧ o2.obId = some ob) ∧
    p.2.notifyLog = s.notifyLog ++
      [(orec.depId, notifyOrder s.dev s.async dr.subs)] ∧
    (∀ b ob2, val = .ref b → b ≠ a → heapGet s b = some ob2 →
      (ob2.obId.isSome = true ∨ (s.shouldObserve = true ∧ s.ssr = false ∧
        (ob2.kind = .arr ∨ ob2.kind = .plain) ∧ ob2.extensible = true ∧
        ob2.isVue = false)) →
      (obIdAt p.2 b).isSome = true) := by
  have hlt : a < s.heap.length := list_get_lt ho
  have hmax : max o.elems.length n = n := Nat.max_eq_right hge
  simp only [set, isUndef, isPrimitive, Bool.or_false, Bool.and_false,
    Bool.false_eq_true, if_false, ho] at hrun
  rw [if_pos (⟨hkind, rfl⟩ :
    o.kind = ObjKind.arr ∧ isValidArrayIndex (.idx n) = true)] at hrun
  rw [hmax] at hrun
  have ho1 : heapGet (heapSet s a { o with elems := padTo o.elems n }) a =
      some { o with elems := padTo o.elems n } :=
    list_get_set_self s.heap a _ hlt
  have hmark1 : obIdAt (heapSet s a { o with elems := padTo o.elems n }) a =
      some ob := by
    simp only [obIdAt, ho1, Option.some_bind]
    exact hob
  simp only [callArrayMethod, hmark1] at hrun
  have hlen1 : (padTo o.elems n).length = n := by
    simp only [padTo, List.length_append, List.length_replicate]
    omega
  have hraw1 := rawApply_splice_extend fuel
    (heapSet s a { o with elems := padTo o.elems n }) a
    { o with elems := padTo o.elems n } n val ho1 hlen1
  rw [Option.map_eq_some'] at hrun
  obtain ⟨q, hq, hpq⟩ := hrun
  obtain ⟨h1, ⟨o2, ho2, he2, hob2⟩, h3, _, h5⟩ :=
    mutator_spec fuel (heapSet s a { o with elems := padTo o.elems n }) a
      { o with elems := padTo o.elems n } .splice
      [.prim (.num n), .prim (.num 1), val] ob orec dr _ _ _ q
      ho1 hob horec hdr hraw1 hq
  subst hpq
  refine ⟨rfl, ⟨o2, ho2, ?_, ?_, hob2⟩, h3, ?_⟩
  · rw [he2]
    simp only [List.length_append, List.length_cons, List.length_nil, hlen1]
  · rw [he2, list_get_append_right _ _ n (le_of_eq hlen1), hlen1]
    simp
  · intro b ob2 hvb hba hgb helig
    subst hvb
    have hgb1 : heapGet (heapSet s a { o with elems := padTo o.elems n }) b =
        some ob2 := by
      have heq : heapGet (heapSet s a { o with elems := padTo o.elems n }) b =
          heapGet s b := list_get_set_other s.heap a b _ hba
      rw [heq]
      exact hgb
    exact h5 _ rfl b ob2 (by simp) hba hgb1 helig

/-- An observed two-element array (subscriber 3 on its dep) for the C5
witness. -/
def c5State : St :=
  { heap := [⟨.arr, [], [.prim (.num 1), .prim (.num 2)], some 0, false, true⟩],
    obs := [⟨0, 0, 0⟩], deps := [⟨[3]⟩], target := none,
    shouldObserve := true, ssr := false, dev := true, async := false,
    warnCount := 0, dependLog := [], notifyLog := [] }

theorem c5_witness : ∃ p : JSValue × St,
    set 20 c5State (.ref 0) (.idx 5) (.prim (.str "v")) = some p ∧
    p.1 = .prim (.str "v") ∧
    (∃ o2, heapGet p.2 0 = some o2 ∧ o2.elems.length = 6 ∧
      o2.elems.get? 5 = some (.prim (.str "v"))) ∧
    p.2.notifyLog = [(0, notifyOrder true false [3])] := by
  refine ⟨_, rfl, ?_⟩
  have h := c5_out_of_range_set_extends 20 c5State 0
    ⟨.arr, [], [.prim (.num 1), .prim (.num 2)], some 0, false, true⟩ 5
    (.prim (.str "v")) 0 ⟨0, 0, 0⟩ ⟨[3]⟩ _ rfl rfl rfl rfl rfl (by decide) rfl
  obtain ⟨h1, ⟨o2, ho2, hl2, hg2, _⟩, h3, _⟩ := h
  exact ⟨h1, ⟨o2, ho2, hl2, hg2⟩, h3⟩

end Vue
